import Mathlib

/-!
Verification development for the `crawler` repository.

Python code is shallowly embedded in Lean:
* Python `str` values are modelled as `List Char` (`Str`); Python string
  literals are injected with `str`.
* Python machine integers are `Nat`/`Int`; the 32-bit unsigned results of
  `mmh3.hash(·, ·, signed=False)` and the `numpy` `uint32` stores are
  modelled by explicit `% 2 ^ 32`.
* Python `float` arithmetic in the Bloom sizing formulas is modelled over
  `ℝ`; `time.time()` timestamps and the statistics dictionary values are
  modelled over `ℚ`.
* fallible code returns `Option`/`Except`.
-/

namespace Crawler

/-- Python strings, modelled as their list of characters. -/
abbrev Str := List Char

/-- Embed a Lean string literal as a Python string. -/
def str (s : String) : Str := s.data

instance {ε α : Type} [DecidableEq ε] [DecidableEq α] :
    DecidableEq (Except ε α) := fun a b =>
  match a, b with
  | .error x, .error y =>
    if h : x = y then .isTrue (congrArg Except.error h)
    else .isFalse fun hc => h (Except.error.inj hc)
  | .ok x, .ok y =>
    if h : x = y then .isTrue (congrArg Except.ok h)
    else .isFalse fun hc => h (Except.ok.inj hc)
  | .error _, .ok _ => .isFalse fun hc => Except.noConfusion hc
  | .ok _, .error _ => .isFalse fun hc => Except.noConfusion hc

/-! ## Bloom filter (`crawlerlib/bloom_filter.py`, packed-bits mode)

The module-level constant `USE_PACKED_BITS` is `True`, so only the packed
branch of each method is live and embedded here.  `mmh3.hash(x, seed,
signed=False)` is an opaque external 32-bit hash; it is modelled by an
arbitrary function field `hash`, truncated with `% 2 ^ 32`.  The `numpy`
byte array `bit_array` is modelled as a total function from byte index to
byte value. -/

/-- State of `BloomFilter` (packed-bits representation).  `hash` models the
external `mmh3.hash` function (key, seed ↦ 32-bit value). -/
structure BloomFilter where
  hash : Str → ℕ → ℕ
  m : ℕ
  k : ℕ
  bit_array : ℕ → ℕ
  n_added : ℕ

namespace BloomFilter

/-- `h1 = mmh3.hash(x, 0, signed=False)`; the `% 2 ^ 32` models the unsigned
32-bit return value. -/
def h1 (bf : BloomFilter) (x : Str) : ℕ := bf.hash x 0 % 2 ^ 32

/-- `h2 = mmh3.hash(x, h1, signed=False)`. -/
def h2 (bf : BloomFilter) (x : Str) : ℕ := bf.hash x (bf.h1 x) % 2 ^ 32

/-- `_hash_all`: double hashing, `hashes[i] = (h1 + i * h2) % self.m`.  The
outer `% 2 ^ 32` models the store into the `np.uint32` array `hashes` (a
no-op whenever `m ≤ 2 ^ 32`). -/
def hash_all (bf : BloomFilter) (x : Str) : List ℕ :=
  (List.range bf.k).map fun i => (bf.h1 x + i * bf.h2 x) % bf.m % 2 ^ 32

/-- One iteration of the packed-bit store loop:
`self.bit_array[pos // 8] |= (1 << (pos % 8))`. -/
def setPos (arr : ℕ → ℕ) (pos : ℕ) : ℕ → ℕ :=
  fun j => if j = pos / 8 then arr j ||| (1 <<< (pos % 8)) else arr j

/-- The packed-bit membership test of one probe position:
`self.bit_array[pos // 8] & (1 << (pos % 8))` is non-zero. -/
def testPos (arr : ℕ → ℕ) (pos : ℕ) : Bool :=
  arr (pos / 8) &&& (1 <<< (pos % 8)) != 0

/-- `BloomFilter.add` (packed branch): set every probe position of `x`, then
`self.n_added += 1`. -/
def add (bf : BloomFilter) (x : Str) : BloomFilter :=
  { bf with
    bit_array := (bf.hash_all x).foldl setPos bf.bit_array
    n_added := bf.n_added + 1 }

/-- `BloomFilter.add_batch` (packed branch): set every probe position of each
item in order, then `self.n_added += len(items)`. -/
def add_batch (bf : BloomFilter) (items : List Str) : BloomFilter :=
  { bf with
    bit_array :=
      items.foldl (fun arr item => (bf.hash_all item).foldl setPos arr) bf.bit_array
    n_added := bf.n_added + items.length }

/-- `BloomFilter.contains` (packed branch): every probe position of `x` must
be set. -/
def contains (bf : BloomFilter) (x : Str) : Bool :=
  (bf.hash_all x).all (testPos bf.bit_array)

/-- `BloomFilter.contains_batch` (packed branch): the per-item results, in
order; each item's entry is false iff some probe position is unset. -/
def contains_batch (bf : BloomFilter) (items : List Str) : List Bool :=
  items.map bf.contains

/-- `self.bytes_needed = (self.m + 7) // 8` from `__init__` (packed branch);
`get_stats` reads the array of this length back through `nbytes`. -/
def bytes_needed (bf : BloomFilter) : ℕ := (bf.m + 7) / 8

/-- Number of set bits of one byte, as `np.unpackbits` counts them. -/
def byteBits (b : ℕ) : ℕ := ((List.range 8).filter fun i => b.testBit i).length

/-- `set_bits = np.unpackbits(self.bit_array).sum()` over the allocated
`bytes_needed` bytes. -/
def set_bits (bf : BloomFilter) : ℕ :=
  ((List.range bf.bytes_needed).map fun i => byteBits (bf.bit_array i)).sum

/-- `BloomFilter.get_stats` (packed branch), as the ordered key/value list of
the returned dict.  All values are numeric and are modelled in `ℚ`:
`fill_ratio = set_bits / m` (0 when `m = 0`), `estimated_fpr =
fill_ratio ** k` (0 when `n_added = 0`), `memory_mb = nbytes / (1024 *
1024)`. -/
def get_stats (bf : BloomFilter) : List (String × ℚ) :=
  let fill_ratio : ℚ := if bf.m > 0 then (bf.set_bits : ℚ) / (bf.m : ℚ) else 0
  let estimated_fpr : ℚ := if bf.n_added > 0 then fill_ratio ^ bf.k else 0
  let memory_mb : ℚ := (bf.bytes_needed : ℚ) / (1024 * 1024)
  [("items_added", (bf.n_added : ℚ)),
   ("size_bits", (bf.m : ℚ)),
   ("num_hashes", (bf.k : ℚ)),
   ("memory_mb", memory_mb),
   ("fill_ratio", fill_ratio),
   ("estimated_fpr", estimated_fpr),
   ("set_bits", (bf.set_bits : ℚ))]

/-- `BloomFilter.__len__`: returns `self.n_added`. -/
def lenOf (bf : BloomFilter) : ℕ := bf.n_added

end BloomFilter

/-- The key list that claim C9 (and §4.2 of the spec) asserts for the stats
dict, written from the spec's words for comparison with `get_stats`. -/
def specStatsKeys : List String :=
  ["items_added", "size_bits", "num_hashes", "memory_bytes", "fill_ratio",
   "estimated_fpr", "set_bits"]

/-- A concrete Bloom filter state used by closed counterexample theorems. -/
def bf0 : BloomFilter :=
  { hash := fun _ _ => 0, m := 8, k := 1, bit_array := fun _ => 0, n_added := 0 }

/-! ## Bloom sizing (`calculate_optimal_params` and `__init__` sizing)

Python `float` arithmetic is modelled over `ℝ`; `math.ceil` is `Int.ceil`. -/

/-- `calculate_optimal_params(n, p)`: `none` models the `ValueError` raise for
invalid parameters; otherwise
`m = -n * math.log(p) / math.log(2) ** 2`, `k = (m / n) * math.log(2)`,
returning `(ceil(m), ceil(k))`.  Note `k` is computed from the *unrounded*
`m`. -/
noncomputable def calculate_optimal_params (n : ℤ) (p : ℝ) : Option (ℤ × ℤ) :=
  if n ≤ 0 ∨ p ≤ 0 ∨ 1 ≤ p then none
  else
    let m : ℝ := -(n : ℝ) * Real.log p / Real.log 2 ^ 2
    let k : ℝ := m / (n : ℝ) * Real.log 2
    some (⌈m⌉, ⌈k⌉)

/-- The sizing performed by `BloomFilter.__init__(expected_items=n,
false_positive_rate=p)` in packed mode: the pair from
`calculate_optimal_params` together with `bytes_needed = (m + 7) // 8`
(Python floor division on non-negative ints, i.e. `Int.ediv`). -/
noncomputable def bloomInitSizing (n : ℤ) (p : ℝ) : Option (ℤ × ℤ × ℤ) :=
  (calculate_optimal_params n p).map fun mk => (mk.1, mk.2, Int.ediv (mk.1 + 7) 8)

/-- The hash count asserted by claim C5, written from the claim's words:
`k = ⌈(m / n) · ln 2⌉` where `m` is the *rounded* bit count `⌈-n ln p /
(ln 2)²⌉`. -/
noncomputable def specHashCount (n : ℤ) (p : ℝ) : ℤ :=
  ⌈((⌈-(n : ℝ) * Real.log p / Real.log 2 ^ 2⌉ : ℤ) : ℝ) / (n : ℝ) * Real.log 2⌉

/-! ## Rate limiter (`crawlerlib/rate.py`)

`time.time()`/`time.sleep` are external; `wait_turn` is modelled as a pure
function of the current time that returns the duration passed to `sleep`
(0 when no sleep happens) and the successor state.  The per-host dict
`_host_next_time` is modelled as `Str → Option ℚ`. -/

/-- State of `RateLimiter`. -/
structure RateLimiter where
  delay_seconds : ℚ
  host_next_time : Str → Option ℚ

namespace RateLimiter

/-- `RateLimiter.wait_turn(netloc)` at current time `now`: returns the slept
duration and the new state.  Mirrors the source: an early return when
`delay_seconds <= 0`; otherwise `next_allowed = dict.get(netloc, 0.0)`,
`sleep_for = next_allowed - now` if positive else `0`, and the dict write
`max(next_allowed, now) + delay_seconds` before sleeping. -/
def wait_turn (rl : RateLimiter) (netloc : Str) (now : ℚ) : ℚ × RateLimiter :=
  if rl.delay_seconds ≤ 0 then (0, rl)
  else
    let next_allowed : ℚ := (rl.host_next_time netloc).getD 0
    let sleep_for : ℚ := if next_allowed > now then next_allowed - now else 0
    (sleep_for,
     { rl with
       host_next_time := fun h =>
         if h = netloc then some (max next_allowed now + rl.delay_seconds)
         else rl.host_next_time h })

end RateLimiter

/-- A concrete rate-limiter state with delay 1 and one known host. -/
def rl1 : RateLimiter :=
  { delay_seconds := 1
    host_next_time := fun h => if h = str "a.com" then some 3 else none }

/-- A concrete rate-limiter state with delay 0. -/
def rl0 : RateLimiter :=
  { delay_seconds := 0
    host_next_time := fun h => if h = str "a.com" then some 3 else none }

/-! ## URL machinery (`urllib.parse` of CPython 3.11 and
`crawlerlib/parsing.py`)

`UrlTools.normalize_link` and `UrlTools.is_allowed_domain` delegate to the
standard library's `urljoin` / `urldefrag` / `urlparse`.  Those stdlib
functions are not part of this repository; they are embedded below by
translating CPython 3.11's `urllib/parse.py` (the pure-string subset that
the crawler exercises: `allow_fragments` is always true and inputs are
`str`).  Two behaviours that Lean cannot express exactly are abstracted by
oracle parameters carried in `PyOracles`:

* `_check_bracketed_host` (only reached when the authority contains both
  `[` and `]`) validates an IPv6/IPvFuture literal via `ipaddress`/`re`;
* `_checknetloc` (only reached when the authority is *not* pure ASCII)
  rejects authorities that change under NFKC normalisation.

Each oracle returns `true` when the corresponding CPython check passes;
every claim below is either quantified over the oracles or evaluated on
ASCII, bracket-free inputs where the oracles are never consulted.
`ValueError` raises are modelled with `Except Unit`. -/

/-- Oracles for the two unmodelled CPython validation routines. -/
structure PyOracles where
  bracketedHostOk : Str → Bool
  netlocNfkcOk : Str → Bool

/-- Python `str.isspace` / the whitespace set stripped by `str.strip()`
(verified against CPython 3.11: these are exactly the code points `c` with
`c.strip() == ''`). -/
def pyIsSpace (c : Char) : Bool :=
  decide ((9 ≤ c.toNat ∧ c.toNat ≤ 13) ∨ (28 ≤ c.toNat ∧ c.toNat ≤ 32) ∨
    c.toNat = 133 ∨ c.toNat = 160 ∨ c.toNat = 5760 ∨
    (8192 ≤ c.toNat ∧ c.toNat ≤ 8202) ∨ c.toNat = 8232 ∨ c.toNat = 8233 ∨
    c.toNat = 8239 ∨ c.toNat = 8287 ∨ c.toNat = 12288)

/-- Python `s.strip()` with no argument. -/
def pyStrip (s : Str) : Str :=
  ((s.dropWhile pyIsSpace).reverse.dropWhile pyIsSpace).reverse

/-- Membership in `_WHATWG_C0_CONTROL_OR_SPACE` (code points `≤ 0x20`). -/
def isC0OrSpace (c : Char) : Bool := decide (c.toNat ≤ 32)

/-- `url.lstrip(_WHATWG_C0_CONTROL_OR_SPACE)`. -/
def lstripC0 (s : Str) : Str := s.dropWhile isC0OrSpace

/-- `scheme.strip(_WHATWG_C0_CONTROL_OR_SPACE)`. -/
def stripC0 (s : Str) : Str :=
  ((s.dropWhile isC0OrSpace).reverse.dropWhile isC0OrSpace).reverse

/-- The removal loop over `_UNSAFE_URL_BYTES_TO_REMOVE = ['\t', '\r', '\n']`. -/
def removeUnsafe (s : Str) : Str :=
  s.filter fun c => ¬(c = '\t' ∨ c = '\r' ∨ c = '\n')

/-- Python `str.isascii` (code point `< 0x80`). -/
def isAsciiCh (c : Char) : Bool := decide (c.toNat < 128)

/-- ASCII `str.lower()`; the call sites below lowercase scheme strings
(pure ASCII by construction) and host names. -/
def lowerStr (s : Str) : Str :=
  s.map fun c => if 'A' ≤ c ∧ c ≤ 'Z' then Char.ofNat (c.toNat + 32) else c

/-- `url.find(c)`: index of the first occurrence. -/
def findCharIdx : Str → Char → Option ℕ
  | [], _ => none
  | c :: rest, t => if c = t then some 0 else (findCharIdx rest t).map (· + 1)

/-- `url.rfind(c)`: index of the last occurrence. -/
def rfindCharIdx (s : Str) (t : Char) : Option ℕ :=
  (findCharIdx s.reverse t).map fun j => s.length - 1 - j

/-- `url.find(c, start)`: first occurrence at index `≥ start`. -/
def findCharFrom (s : Str) (t : Char) (start : ℕ) : Option ℕ :=
  (findCharIdx (s.drop start) t).map (· + start)

/-- `url.split(c, 1)` when `c` occurs: the parts before and after the first
occurrence (when `c` is absent the whole string is returned unsplit, as the
single-element list Python would give). -/
def splitOnce : Str → Char → Str × Str
  | [], _ => ([], [])
  | c :: rest, t =>
    if c = t then ([], rest)
    else
      let p := splitOnce rest t
      (c :: p.1, p.2)

/-- Python `s.split(sep)` for a one-character separator. -/
def splitChar (sep : Char) : Str → List Str
  | [] => [[]]
  | c :: rest =>
    if c = sep then [] :: splitChar sep rest
    else
      match splitChar sep rest with
      | [] => [[c]]
      | h :: t => (c :: h) :: t

/-- `sep.join(parts)` for a one-character separator. -/
def joinChar (sep : Char) : List Str → Str
  | [] => []
  | [a] => a
  | a :: rest => a ++ sep :: joinChar sep rest

/-- `uses_relative` from `urllib/parse.py`. -/
def usesRelative : List Str :=
  [str "", str "ftp", str "http", str "gopher", str "nntp", str "imap",
   str "wais", str "file", str "https", str "shttp", str "mms",
   str "prospero", str "rtsp", str "rtsps", str "rtspu", str "sftp",
   str "svn", str "svn+ssh", str "ws", str "wss"]

/-- `uses_netloc` from `urllib/parse.py`. -/
def usesNetloc : List Str :=
  [str "", str "ftp", str "http", str "gopher", str "nntp", str "telnet",
   str "imap", str "wais", str "file", str "mms", str "https", str "shttp",
   str "snews", str "prospero", str "rtsp", str "rtsps", str "rtspu",
   str "rsync", str "svn", str "svn+ssh", str "sftp", str "nfs", str "git",
   str "git+ssh", str "ws", str "wss"]

/-- `uses_params` from `urllib/parse.py`. -/
def usesParams : List Str :=
  [str "", str "ftp", str "hdl", str "prospero", str "http", str "imap",
   str "https", str "shttp", str "rtsp", str "rtsps", str "rtspu",
   str "sip", str "sips", str "mms", str "sftp", str "tel"]

/-- Membership in `scheme_chars` (ASCII letters, digits, `+`, `-`, `.`). -/
def isSchemeChar (c : Char) : Bool :=
  decide (('a' ≤ c ∧ c ≤ 'z') ∨ ('A' ≤ c ∧ c ≤ 'Z') ∨ ('0' ≤ c ∧ c ≤ '9') ∨
    c = '+' ∨ c = '-' ∨ c = '.')

/-- `url[0].isascii() and url[0].isalpha()` for the scheme head. -/
def isAsciiAlpha (c : Char) : Bool :=
  decide (('a' ≤ c ∧ c ≤ 'z') ∨ ('A' ≤ c ∧ c ≤ 'Z'))

/-- The scheme-detection block of `urlsplit`: when `url.find(':') = i > 0`,
`url[0]` is an ASCII letter and every char of `url[:i]` is in
`scheme_chars`, the result is `(url[:i].lower(), url[i+1:])`. -/
def splitSchemeOf (url : Str) : Option (Str × Str) :=
  match findCharIdx url ':' with
  | none => none
  | some i =>
    if 0 < i ∧ isAsciiAlpha (url.headD ' ') ∧ (url.take i).all isSchemeChar
    then some (lowerStr (url.take i), url.drop (i + 1))
    else none

/-- `_splitnetloc(url, 2)`: the authority runs to the earliest of `/`, `?`,
`#` (or the end); the remainder starts at that delimiter. -/
def splitnetloc (s : Str) : Str × Str :=
  (s.takeWhile fun c => ¬(c = '/' ∨ c = '?' ∨ c = '#'),
   s.dropWhile fun c => ¬(c = '/' ∨ c = '?' ∨ c = '#'))

/-- `netloc.partition('[')[2].partition(']')[0]`: the bracketed host. -/
def bracketedHostOf (netloc : Str) : Str :=
  ((splitOnce netloc '[').2.takeWhile fun c => c ≠ ']')

/-- Result record of `urlsplit`. -/
structure SplitResult where
  scheme : Str
  netloc : Str
  path : Str
  query : Str
  fragment : Str
deriving DecidableEq, Repr

/-- Result record of `urlparse`. -/
structure ParseResult where
  scheme : Str
  netloc : Str
  path : Str
  params : Str
  query : Str
  fragment : Str
deriving DecidableEq, Repr

/-- `urlsplit(url, scheme)` of CPython 3.11 with `allow_fragments=True`:
lstrip C0-control-or-space from `url`, strip it from both ends of the
default `scheme`, delete `\t`/`\r`/`\n` everywhere, detect the scheme,
split the authority when the rest starts with `//` (raising on unbalanced
brackets and invalid bracketed hosts), split off fragment then query, and
run `_checknetloc` (which passes for any pure-ASCII or empty authority).
`Except.error ()` models a `ValueError` raise. -/
def urlsplitPy (O : PyOracles) (url0 scheme0 : Str) : Except Unit SplitResult :=
  let url1 := removeUnsafe (lstripC0 url0)
  let dscheme := removeUnsafe (stripC0 scheme0)
  let su :=
    match splitSchemeOf url1 with
    | some sr => sr
    | none => (dscheme, url1)
  let nu :=
    if su.2.take 2 = str "//" then splitnetloc (su.2.drop 2) else ([], su.2)
  let netloc := nu.1
  if ('[' ∈ netloc ∧ ¬(']' ∈ netloc)) ∨ (']' ∈ netloc ∧ ¬('[' ∈ netloc)) then
    .error ()
  else if '[' ∈ netloc ∧ ']' ∈ netloc ∧
      ¬O.bracketedHostOk (bracketedHostOf netloc) then
    .error ()
  else
    let uf := if '#' ∈ nu.2 then splitOnce nu.2 '#' else (nu.2, [])
    let pq := if '?' ∈ uf.1 then splitOnce uf.1 '?' else (uf.1, [])
    if ¬(netloc.isEmpty ∨ netloc.all isAsciiCh) ∧ ¬O.netlocNfkcOk netloc then
      .error ()
    else
      .ok ⟨su.1, netloc, pq.1, pq.2, uf.2⟩

/-- `_splitparams(url)`: split the parameters off the last path segment
(the `-1` returned by a failed `find` makes Python slice `url[:-1]`,
`url[0:]`; that branch is unreachable from `urlparse`, which only calls
this when `;` occurs). -/
def splitparams (url : Str) : Str × Str :=
  if '/' ∈ url then
    match rfindCharIdx url '/' with
    | none => (url, [])
    | some j =>
      match findCharFrom url ';' j with
      | none => (url, [])
      | some i => (url.take i, url.drop (i + 1))
  else
    match findCharIdx url ';' with
    | none => (url.dropLast, url)
    | some i => (url.take i, url.drop (i + 1))

/-- `urlparse(url, scheme)` with `allow_fragments=True`. -/
def urlparsePy (O : PyOracles) (url0 scheme0 : Str) : Except Unit ParseResult :=
  (urlsplitPy O url0 scheme0).map fun r =>
    if r.scheme ∈ usesParams ∧ ';' ∈ r.path then
      let pp := splitparams r.path
      ⟨r.scheme, r.netloc, pp.1, pp.2, r.query, r.fragment⟩
    else
      ⟨r.scheme, r.netloc, r.path, [], r.query, r.fragment⟩

/-- `urlunsplit` of CPython 3.11 (note: it restores `//` whenever the
scheme uses a netloc, even when the authority is empty). -/
def urlunsplitPy (c : SplitResult) : Str :=
  let url := c.path
  let url :=
    if ¬c.netloc.isEmpty ∨
        (¬c.scheme.isEmpty ∧ c.scheme ∈ usesNetloc ∧ url.take 2 ≠ str "//")
    then
      let url := if ¬url.isEmpty ∧ url.take 1 ≠ str "/" then '/' :: url else url
      str "//" ++ c.netloc ++ url
    else url
  let url := if ¬c.scheme.isEmpty then c.scheme ++ ':' :: url else url
  let url := if ¬c.query.isEmpty then url ++ '?' :: c.query else url
  if ¬c.fragment.isEmpty then url ++ '#' :: c.fragment else url

/-- `urlunparse`. -/
def urlunparsePy (p : ParseResult) : Str :=
  urlunsplitPy
    ⟨p.scheme, p.netloc,
     (if ¬p.params.isEmpty then p.path ++ ';' :: p.params else p.path),
     p.query, p.fragment⟩

/-- The dot-segment resolution loop of `urljoin` (`..` pops, ignoring pops
from an empty list; `.` is dropped; everything else is appended). -/
def resolveStep (acc : List Str) (seg : Str) : List Str :=
  if seg = str ".." then acc.dropLast
  else if seg = str "." then acc
  else acc ++ [seg]

/-- `segments[1:-1] = filter(None, segments[1:-1])`. -/
def filterMiddle : List Str → List Str
  | [] => []
  | [a] => [a]
  | a :: rest =>
    a :: ((rest.dropLast.filter fun s => ¬s.isEmpty) ++ [rest.getLastD []])

/-- The dot-segment resolution tail of `urljoin` (everything from
`base_parts = bpath.split('/')` on), for the case where the relative `url`
has a path or params of its own. -/
def joinSegments (bpath upath : Str) : Str :=
  let baseParts := splitChar '/' bpath
  let baseParts :=
    if baseParts.getLastD [] ≠ [] then baseParts.dropLast else baseParts
  let segments :=
    if upath.take 1 = str "/" then splitChar '/' upath
    else filterMiddle (baseParts ++ splitChar '/' upath)
  let resolved := segments.foldl resolveStep []
  let resolved :=
    if segments.getLastD [] = str "." ∨ segments.getLastD [] = str ".." then
      resolved ++ [[]]
    else resolved
  let path := joinChar '/' resolved
  if path.isEmpty then str "/" else path

/-- `urljoin(base, url)` of CPython 3.11 with `allow_fragments=True`. -/
def urljoinPy (O : PyOracles) (base url : Str) : Except Unit Str :=
  if base.isEmpty then .ok url
  else if url.isEmpty then .ok base
  else
    (urlparsePy O base []).bind fun b =>
    (urlparsePy O url b.scheme).bind fun u =>
    if u.scheme ≠ b.scheme ∨ ¬u.scheme ∈ usesRelative then .ok url
    else if u.scheme ∈ usesNetloc ∧ ¬u.netloc.isEmpty then
      .ok (urlunparsePy ⟨u.scheme, u.netloc, u.path, u.params, u.query, u.fragment⟩)
    else
      let netloc := if u.scheme ∈ usesNetloc then b.netloc else u.netloc
      if u.path.isEmpty ∧ u.params.isEmpty then
        let query := if u.query.isEmpty then b.query else u.query
        .ok (urlunparsePy ⟨u.scheme, netloc, b.path, b.params, query, u.fragment⟩)
      else
        .ok (urlunparsePy
          ⟨u.scheme, netloc, joinSegments b.path u.path, u.params, u.query,
           u.fragment⟩)

/-- `urldefrag(url)`, keeping only the defragmented URL. -/
def urldefragPy (O : PyOracles) (url : Str) : Except Unit Str :=
  if '#' ∈ url then
    (urlparsePy O url []).map fun p =>
      urlunparsePy ⟨p.scheme, p.netloc, p.path, p.params, p.query, []⟩
  else
    .ok url

/-- `UrlTools.normalize_link(base_url, href)` from `crawlerlib/parsing.py`:
`None` for empty href; strip; reject `mailto:`/`javascript:`/`tel:`/`#`
prefixes; join with the base; defragment; accept only `http`/`https`. -/
def normalize_link (O : PyOracles) (base href0 : Str) : Except Unit (Option Str) :=
  if href0.isEmpty then .ok none
  else
    let href := pyStrip href0
    if (str "mailto:").isPrefixOf href ∨ (str "javascript:").isPrefixOf href ∨
        (str "tel:").isPrefixOf href ∨ (str "#").isPrefixOf href then
      .ok none
    else
      (urljoinPy O base href).bind fun joined =>
      (urldefragPy O joined).bind fun absolute =>
      (urlparsePy O absolute []).map fun p =>
        if p.scheme = str "http" ∨ p.scheme = str "https" then some absolute
        else none

/-- `UrlTools.is_allowed_domain(url, allowed_domains)` from
`crawlerlib/parsing.py`. -/
def is_allowed_domain (O : PyOracles) (url : Str) (allowed : List Str) :
    Except Unit Bool :=
  if allowed.isEmpty then .ok true
  else
    (urlparsePy O url []).map fun p =>
      let host := lowerStr p.netloc
      allowed.any fun d => host = d ∨ ('.' :: d).isSuffixOf host

/-- The allowed-domain preprocessing of `Crawler.__init__` (engine.py:33):
`[d.lower().lstrip(".") for d in config.allowed_domains]`. -/
def configAllowedDomains (ds : List Str) : List Str :=
  ds.map fun d => (lowerStr d).dropWhile fun c => c = '.'

/-- Oracle instance used by concrete evaluations; the inputs they are run
on are ASCII and bracket-free, so these functions are never consulted. -/
def oracles0 : PyOracles := ⟨fun _ => true, fun _ => true⟩

/-! ## The canonical-URL predicate for claim C8

`normalize_link` is *not* idempotent on all of its outputs (see the
counterexample below); it is idempotent on outputs in canonical form.  A
canonical URL is printable ASCII, literally starts with `http://` or
`https://`, has a non-empty host, no fragment or bracket characters, no
dangling empty query (`?` as last character of the first query split), and
no dangling empty params (`;` immediately ending the last path segment). -/

/-- Printable ASCII (`0x20 < c < 0x7f`). -/
def isPrintableAscii (c : Char) : Bool := decide (32 < c.toNat ∧ c.toNat < 127)

/-- Empty-params check on a path: the split position `_splitparams` would
use must not be the final character. -/
def paramsOkOf (p : Str) : Bool :=
  match (rfindCharIdx p '/').bind fun j => findCharFrom p ';' j with
  | none => true
  | some i => i + 1 ≠ p.length

/-- Scheme of a canonical URL (`http` or `https`). -/
def canonScheme (u : Str) : Str :=
  if (str "http://").isPrefixOf u then str "http" else str "https"

/-- Everything after the `://` of a canonical URL. -/
def canonRest (u : Str) : Str :=
  if (str "http://").isPrefixOf u then u.drop 7 else u.drop 8

/-- Authority of a canonical URL. -/
def canonNetloc (u : Str) : Str := (splitnetloc (canonRest u)).1

/-- Path-plus-query of a canonical URL. -/
def canonPathQ (u : Str) : Str := (splitnetloc (canonRest u)).2

/-- Path of a canonical URL (before the first `?`, if any). -/
def canonPath (u : Str) : Str :=
  if '?' ∈ canonPathQ u then (splitOnce (canonPathQ u) '?').1 else canonPathQ u

/-- Query of a canonical URL (after the first `?`; empty when none). -/
def canonQuery (u : Str) : Str :=
  if '?' ∈ canonPathQ u then (splitOnce (canonPathQ u) '?').2 else []

/-- The path/params split `urlparse` performs on a path `p` (identity when
`;` does not occur in `p`). -/
def canonParams (p : Str) : Str × Str :=
  if ';' ∈ p then splitparams p else (p, [])

/-- Canonical form for claim C8 (see the section comment). -/
def canonicalUrl (u : Str) : Bool :=
  ((str "http://").isPrefixOf u ∨ (str "https://").isPrefixOf u) ∧
    u.all isPrintableAscii ∧ ¬('#' ∈ u) ∧ ¬('[' ∈ u) ∧ ¬(']' ∈ u) ∧
    ¬(canonNetloc u).isEmpty ∧
    (¬('?' ∈ canonPathQ u) ∨ ¬(splitOnce (canonPathQ u) '?').2.isEmpty) ∧
    paramsOkOf ((canonPathQ u).takeWhile fun c => c ≠ '?')

/-! ## Persistent store (`crawlerlib/storage.py`, `SqliteStore`)

The SQLite tables are modelled as association lists keyed by their PRIMARY
KEY column; every operation holds the store lock in the source and is
modelled as a pure state transition.  Transient `sqlite3.Error`s (caught
only in `mark_enqueued`) are outside the model: the embedded operations
are the error-free executions. -/

/-- A row of the `pages` table (minus `crawled_at`, a timestamp default). -/
structure PageRow where
  status : ℤ
  content_type : Str
  title : Str
  description : Str
  text : Str
  depth : ℕ
deriving DecidableEq, Repr

/-- The record dict a worker builds and passes to the JSONL writer and
`save_page`. -/
structure PageRecord where
  url : Str
  status : ℤ
  content_type : Str
  title : Str
  description : Str
  text : Str
  num_links : ℕ
deriving DecidableEq, Repr

/-- State of the three tables of `SqliteStore`. -/
structure StoreState where
  pages : List (Str × PageRow)
  frontier : List (Str × ℕ)
  links : List (Str × Str)
deriving DecidableEq, Repr

namespace StoreState

/-- `has_page(url)`: `url` exists in `pages`. -/
def has_page (st : StoreState) (url : Str) : Bool :=
  (List.lookup url st.pages).isSome

/-- `seen_url(url)`: `url` exists in `pages` or `frontier`. -/
def seen_url (st : StoreState) (url : Str) : Bool :=
  (List.lookup url st.pages).isSome ∨ (List.lookup url st.frontier).isSome

/-- `mark_enqueued(url, depth)`: `INSERT OR IGNORE INTO frontier`; returns
whether a row was inserted (`changes() > 0`). -/
def mark_enqueued (st : StoreState) (url : Str) (depth : ℕ) :
    Bool × StoreState :=
  if (List.lookup url st.frontier).isSome then (false, st)
  else (true, { st with frontier := st.frontier ++ [(url, depth)] })

/-- `dequeue(url)`: `DELETE FROM frontier WHERE url = ?`. -/
def dequeue (st : StoreState) (url : Str) : StoreState :=
  { st with frontier := st.frontier.filter fun p => ¬p.1 = url }

/-- `save_page(record, depth)`: `INSERT OR REPLACE INTO pages`. -/
def save_page (st : StoreState) (record : PageRecord) (depth : ℕ) :
    StoreState :=
  { st with
    pages := (st.pages.filter fun p => ¬p.1 = record.url) ++
      [(record.url,
        ⟨record.status, record.content_type, record.title,
         record.description, record.text, depth⟩)] }

/-- `add_links(from_url, to_urls)`: bulk `INSERT OR IGNORE INTO links`. -/
def add_links (st : StoreState) (from_url : Str) (to_urls : List Str) :
    StoreState :=
  { st with
    links := to_urls.foldl
      (fun acc u => if (from_url, u) ∈ acc then acc else acc ++ [(from_url, u)])
      st.links }

end StoreState

/-! ## Crawler engine (`crawlerlib/engine.py`)

The engine's concurrency is serialized: `_should_visit`'s bloom block runs
under `visited_lock` and all store calls run under the store lock, so each
call is modelled as an atomic state transition.  The HTTP client,
robots cache and Extractor are external collaborators whose per-call
results (`robots_can_fetch`, `response`, extracted fields, `links`) are
inputs to the worker step.  `create_bloom_filter`'s sizing is
transcendental, so the filter a lazy init would create is carried in the
state as `freshBloom` (an arbitrary empty filter). -/

/-- The configuration fields of `CrawlConfig` the embedded engine reads. -/
structure EngineConfig where
  allowed_domains : List Str
  max_pages : ℕ
  max_depth : ℕ
  obey_robots_txt : Bool

/-- The mutable state a crawler worker reads and writes. -/
structure CrawlState where
  cfg : EngineConfig
  frontier : List (Str × ℕ)
  visited : List Str
  bloom : Option BloomFilter
  freshBloom : BloomFilter
  store : Option StoreState
  writerOut : List PageRecord
  pages_crawled : ℕ

/-- `FetchResult` from `crawlerlib/types.py`. -/
structure FetchResultPy where
  status : ℤ
  content_type : Str
  text : Str
  size_bytes : ℕ
deriving DecidableEq, Repr

/-- `Crawler._should_visit(url)`: domain gate, then the two-tier
Bloom/SQLite check (store mode) or the in-memory visited set.  Returns
the admission decision and the successor state. -/
def should_visit (O : PyOracles) (st : CrawlState) (url : Str) :
    Except Unit (Bool × CrawlState) :=
  (is_allowed_domain O url (configAllowedDomains st.cfg.allowed_domains)).map
    fun allowed =>
    if allowed = false then (false, st)
    else
      match st.store with
      | some store =>
        let st1 :=
          if st.bloom.isNone then { st with bloom := some st.freshBloom }
          else st
        match st1.bloom with
        | some bf =>
          if ¬bf.contains url then
            (true, { st1 with bloom := some (bf.add url) })
          else if store.has_page url then (false, st1)
          else (true, { st1 with bloom := some (bf.add url) })
        | none =>
          if store.has_page url then (false, st1) else (true, st1)
      | none =>
        if url ∈ st.visited then (false, st)
        else (true, { st with visited := st.visited ++ [url] })

/-- The body of `Crawler._enqueue_links`'s per-link loop: the domain
filter, then `seen_url` + `_persist_enqueue` (store mode) or the
unconditional `frontier.put`. -/
def enqueue_step (O : PyOracles) (next_depth : ℕ) (st : CrawlState)
    (link : Str) : Except Unit CrawlState :=
  (is_allowed_domain O link
    (configAllowedDomains st.cfg.allowed_domains)).map fun ok =>
  if ok = true then
    match st.store with
    | some store =>
      if store.seen_url link = false then
        let ms := store.mark_enqueued link next_depth
        if ms.1 then
          { st with
            store := some ms.2
            frontier := st.frontier ++ [(link, next_depth)] }
        else { st with store := some ms.2 }
      else st
    | none => { st with frontier := st.frontier ++ [(link, next_depth)] }
  else st

/-- `Crawler._enqueue_links(links, current_depth)`. -/
def enqueue_links (O : PyOracles) (st : CrawlState) (links : List Str)
    (current_depth : ℕ) : Except Unit CrawlState :=
  let next_depth := current_depth + 1
  if next_depth > st.cfg.max_depth then .ok st
  else links.foldlM (enqueue_step O next_depth) st

/-- `self.store.dequeue(url)` guarded by `if self.store:`. -/
def CrawlState.storeDequeue (st : CrawlState) (url : Str) : CrawlState :=
  match st.store with
  | some s => { st with store := some (s.dequeue url) }
  | none => st

/-- The tail of the worker body after the record is complete: JSONL write,
then (store mode) `save_page` and `dequeue`, then the page-count
increment. -/
def finalizeRecord (st : CrawlState) (record : PageRecord) (depth : ℕ) :
    CrawlState :=
  let st1 := { st with writerOut := st.writerOut ++ [record] }
  let st2 :=
    match st1.store with
    | some s =>
      { st1 with store := some ((s.save_page record depth).dequeue record.url) }
    | none => st1
  { st2 with pages_crawled := st2.pages_crawled + 1 }

/-- Python `pat in s` substring test. -/
def containsSub (s pat : Str) : Bool := decide (pat <:+: s)

/-- One iteration of `Crawler.worker` after a frontier entry `(url, depth)`
has been taken from the in-memory queue and the page-cap re-check passed:
the robots gate, the visited gate, the fetch (its result supplied as
`response`; `none` models a failed fetch), extraction (its outputs supplied
as the `extracted*` fields and `links`), enqueueing, persistence and
bookkeeping, exactly in source order. -/
def workerStep (O : PyOracles) (st : CrawlState) (url : Str) (depth : ℕ)
    (robots_can_fetch : Bool) (response : Option FetchResultPy)
    (extractedTitle extractedDescription extractedText : Str)
    (links : List Str) : Except Unit CrawlState :=
  if st.cfg.obey_robots_txt = true ∧ ¬robots_can_fetch = true then
    .ok (st.storeDequeue url)
  else
    (should_visit O st url).bind fun sv =>
    if ¬sv.1 then .ok sv.2
    else
      match response with
      | none => .ok (sv.2.storeDequeue url)
      | some resp =>
        if ¬resp.text.isEmpty ∧ containsSub resp.content_type (str "text/html")
        then
          (enqueue_links O sv.2 links depth).map fun st2 =>
            let record : PageRecord :=
              ⟨url, resp.status, resp.content_type, extractedTitle,
               extractedDescription, extractedText, links.length⟩
            let st3 :=
              match st2.store with
              | some s => { st2 with store := some (s.add_links url links) }
              | none => st2
            finalizeRecord st3 record depth
        else
          .ok (finalizeRecord sv.2
            ⟨url, resp.status, resp.content_type, [], [], [], 0⟩ depth)

/-- A sequence of visited-gate calls, threading the state. -/
def runVisits (O : PyOracles) (st : CrawlState) (urls : List Str) :
    Except Unit (List Bool × CrawlState) :=
  match urls with
  | [] => .ok ([], st)
  | url :: rest =>
    (should_visit O st url).bind fun sv =>
    (runVisits O sv.2 rest).map fun rs => (sv.1 :: rs.1, rs.2)

/-- Number of gate calls for `u` in a call sequence that returned true. -/
def countAdmits (urls : List Str) (results : List Bool) (u : Str) : ℕ :=
  (urls.zip results).countP fun p => p.1 = u ∧ p.2 = true

/-- Concrete engine state for the C1 counterexample: a configured store
with no page rows, an initialised (empty) Bloom filter, allow-all
domains. -/
def cexVisitState : CrawlState :=
  { cfg := ⟨[], 10, 2, true⟩
    frontier := []
    visited := []
    bloom := some bf0
    freshBloom := bf0
    store := some ⟨[], [], []⟩
    writerOut := []
    pages_crawled := 0 }

/-- Concrete engine state for the C2 counterexample: the store's frontier
holds the URL about to be processed, its page row already exists, and the
Bloom filter contains it, so the visited gate rejects. -/
def cexWorkerState : CrawlState :=
  { cfg := ⟨[], 10, 2, true⟩
    frontier := []
    visited := []
    bloom := some (bf0.add (str "http://a/"))
    freshBloom := bf0
    store := some ⟨[(str "http://a/", ⟨200, [], [], [], [], 0⟩)],
      [(str "http://a/", 1)], []⟩
    writerOut := []
    pages_crawled := 0 }

/-- The store's frontier row for `url` (the row `SqliteStore.dequeue`
deletes), `none` when no store is configured. -/
def storeFrontierLookup (st : CrawlState) (url : Str) : Option ℕ :=
  match st.store with
  | some s => List.lookup url s.frontier
  | none => none

/-! ## Helper lemmas: packed-bit array monotonicity -/

namespace BloomFilter

theorem testPos_eq_testBit (arr : ℕ → ℕ) (p : ℕ) :
    testPos arr p = (arr (p / 8)).testBit (p % 8) := by
  unfold testPos
  rw [Nat.one_shiftLeft, Nat.and_two_pow]
  cases h : (arr (p / 8)).testBit (p % 8) <;> simp [h, Nat.pow_eq_zero]

theorem testPos_setPos_mono (arr : ℕ → ℕ) (p q : ℕ)
    (h : testPos arr p = true) : testPos (setPos arr q) p = true := by
  rw [testPos_eq_testBit] at h ⊢
  unfold setPos
  split
  · rw [Nat.one_shiftLeft, Nat.testBit_lor, h, Bool.true_or]
  · exact h

theorem testPos_setPos_self (arr : ℕ → ℕ) (p : ℕ) :
    testPos (setPos arr p) p = true := by
  rw [testPos_eq_testBit]
  unfold setPos
  rw [if_pos rfl, Nat.one_shiftLeft, Nat.testBit_lor, Nat.testBit_two_pow_self,
    Bool.or_true]

theorem testPos_foldl_mono (l : List ℕ) (arr : ℕ → ℕ) (p : ℕ)
    (h : testPos arr p = true) : testPos (l.foldl setPos arr) p = true := by
  induction l generalizing arr with
  | nil => exact h
  | cons q l ih => exact ih _ (testPos_setPos_mono arr p q h)

theorem testPos_foldl_mem (l : List ℕ) (arr : ℕ → ℕ) (p : ℕ) (hp : p ∈ l) :
    testPos (l.foldl setPos arr) p = true := by
  induction l generalizing arr with
  | nil => cases hp
  | cons q l ih =>
    rcases List.mem_cons.mp hp with h | h
    · subst h
      exact testPos_foldl_mono l _ p (testPos_setPos_self arr p)
    · exact ih _ h

theorem testPos_batchFold_mono (H : Str → List ℕ) (items : List Str)
    (arr : ℕ → ℕ) (p : ℕ) (h : testPos arr p = true) :
    testPos (items.foldl (fun a it => (H it).foldl setPos a) arr) p = true := by
  induction items generalizing arr with
  | nil => exact h
  | cons it items ih => exact ih _ (testPos_foldl_mono (H it) arr p h)

theorem testPos_batchFold_mem (H : Str → List ℕ) (items : List Str)
    (arr : ℕ → ℕ) (x : Str) (hx : x ∈ items) (p : ℕ) (hp : p ∈ H x) :
    testPos (items.foldl (fun a it => (H it).foldl setPos a) arr) p = true := by
  induction items generalizing arr with
  | nil => cases hx
  | cons it items ih =>
    rcases List.mem_cons.mp hx with h | h
    · subst h
      exact testPos_batchFold_mono H items _ p (testPos_foldl_mem (H x) arr p hp)
    · exact ih _ h

end BloomFilter

/-! ## Helper lemmas: characters and list splitting -/

theorem printable_not_space {c : Char} (h : isPrintableAscii c = true) :
    pyIsSpace c = false := by
  simp only [isPrintableAscii, decide_eq_true_eq] at h
  simp only [pyIsSpace, decide_eq_false_iff_not]
  omega

theorem printable_not_c0 {c : Char} (h : isPrintableAscii c = true) :
    isC0OrSpace c = false := by
  simp only [isPrintableAscii, decide_eq_true_eq] at h
  simp only [isC0OrSpace, decide_eq_false_iff_not]
  omega

theorem printable_ascii {c : Char} (h : isPrintableAscii c = true) :
    isAsciiCh c = true := by
  simp only [isPrintableAscii, decide_eq_true_eq] at h
  simp only [isAsciiCh, decide_eq_true_eq]
  omega

theorem printable_not_unsafe {c : Char} (h : isPrintableAscii c = true) :
    ¬(c = '\t' ∨ c = '\r' ∨ c = '\n') := by
  rintro (rfl | rfl | rfl) <;> exact absurd h (by decide)

theorem dropWhile_eq_self_of (P : Char → Bool) (s : Str)
    (h : ∀ c ∈ s, P c = false) : s.dropWhile P = s := by
  cases s with
  | nil => rfl
  | cons a t => simp [List.dropWhile_cons, h a (List.mem_cons_self a t)]

theorem pyStrip_eq_self (s : Str) (h : ∀ c ∈ s, pyIsSpace c = false) :
    pyStrip s = s := by
  unfold pyStrip
  rw [dropWhile_eq_self_of _ _ h, dropWhile_eq_self_of, List.reverse_reverse]
  intro c hc
  exact h c (by simpa using hc)

theorem removeUnsafe_eq_self (s : Str)
    (h : ∀ c ∈ s, isPrintableAscii c = true) : removeUnsafe s = s := by
  unfold removeUnsafe
  rw [List.filter_eq_self]
  intro c hc
  simpa using printable_not_unsafe (h c hc)

theorem findCharIdx_prefix (pre : Str) (t : Char) (post : Str)
    (h : ¬t ∈ pre) : findCharIdx (pre ++ t :: post) t = some pre.length := by
  induction pre with
  | nil => simp [findCharIdx]
  | cons a s ih =>
    have ha : a ≠ t := fun e => h (by simp [e])
    simp [findCharIdx, ha, ih fun hm => h (by simp [hm])]

theorem splitOnce_prefix (pre : Str) (t : Char) (post : Str)
    (h : ¬t ∈ pre) : splitOnce (pre ++ t :: post) t = (pre, post) := by
  induction pre with
  | nil => simp [splitOnce]
  | cons a s ih =>
    have ha : a ≠ t := fun e => h (by simp [e])
    simp [splitOnce, ha, ih fun hm => h (by simp [hm])]

theorem splitOnce_decomp (s : Str) (t : Char) (h : t ∈ s) :
    (splitOnce s t).1 = s.takeWhile (fun c => c ≠ t) ∧
      s = (splitOnce s t).1 ++ t :: (splitOnce s t).2 ∧
      ¬t ∈ (splitOnce s t).1 := by
  induction s with
  | nil => cases h
  | cons a rest ih =>
    by_cases ha : a = t
    · subst ha
      simp [splitOnce]
    · have hm : t ∈ rest := by
        rcases List.mem_cons.mp h with e | e
        · exact absurd e.symm ha
        · exact e
      obtain ⟨h1, h2, h3⟩ := ih hm
      refine ⟨?_, ?_, ?_⟩
      · simp [splitOnce, ha, List.takeWhile_cons, h1]
      · simp only [splitOnce, if_neg ha]
        exact congrArg (a :: ·) h2
      · simp only [splitOnce, if_neg ha]
        intro hmem
        rcases List.mem_cons.mp hmem with e | e
        · exact ha e.symm
        · exact h3 e

theorem takeWhile_eq_self_of_not_mem (s : Str) (t : Char) (h : ¬t ∈ s) :
    s.takeWhile (fun c => c ≠ t) = s := by
  induction s with
  | nil => rfl
  | cons a rest ih =>
    have ha : a ≠ t := fun e => h (by simp [e])
    simp [List.takeWhile_cons, ha]
    intro x hx e
    subst e
    exact h (List.mem_cons_of_mem a hx)

/-! ## Helper lemmas: canonical URL decomposition -/

theorem canonical_prefix {u : Str} (hc : canonicalUrl u = true) :
    (str "http://").isPrefixOf u = true ∨
      ((str "http://").isPrefixOf u = false ∧
        (str "https://").isPrefixOf u = true) := by
  unfold canonicalUrl at hc
  simp only [decide_eq_true_eq] at hc
  by_cases h1 : (str "http://").isPrefixOf u = true
  · exact .inl h1
  · rcases hc.1 with h | h
    · exact .inl h
    · exact .inr ⟨Bool.eq_false_iff.mpr h1, h⟩

theorem prefix_drop (pre t : Str) (h : pre.isPrefixOf t = true) :
    t = pre ++ t.drop pre.length := by
  obtain ⟨s, rfl⟩ := List.isPrefixOf_iff_prefix.mp h
  rw [List.drop_left]

theorem canonical_decomp {u : Str} (hc : canonicalUrl u = true) :
    u = canonScheme u ++ ':' :: '/' :: '/' :: canonRest u := by
  rcases canonical_prefix hc with h | ⟨hn, h⟩
  · have hd := prefix_drop (str "http://") u h
    unfold canonScheme canonRest
    rw [if_pos h, if_pos h]
    exact hd
  · have hd := prefix_drop (str "https://") u h
    unfold canonScheme canonRest
    rw [if_neg (by simp [hn]), if_neg (by simp [hn])]
    exact hd

theorem canonPath_eq_takeWhile (u : Str) :
    canonPath u = (canonPathQ u).takeWhile (fun c => c ≠ '?') := by
  unfold canonPath
  by_cases h : '?' ∈ canonPathQ u
  · rw [if_pos h]
    exact (splitOnce_decomp _ _ h).1
  · rw [if_neg h, takeWhile_eq_self_of_not_mem _ _ h]

theorem canonical_facts {u : Str} (hc : canonicalUrl u = true) :
    (∀ c ∈ u, isPrintableAscii c = true) ∧ ¬('#' ∈ u) ∧ ¬('[' ∈ u) ∧ ¬(']' ∈ u) ∧
      canonNetloc u ≠ [] ∧ (¬('?' ∈ canonPathQ u) ∨ canonQuery u ≠ []) ∧
      paramsOkOf (canonPath u) = true := by
  unfold canonicalUrl at hc
  simp only [decide_eq_true_eq, List.all_eq_true, List.isEmpty_iff] at hc
  obtain ⟨-, ha, h2, h3, h4, h5, h6, h7⟩ := hc
  refine ⟨ha, h2, h3, h4, h5, ?_, ?_⟩
  · rcases h6 with h6 | h6
    · exact .inl h6
    · by_cases hq : '?' ∈ canonPathQ u
      · exact .inr (by simpa [canonQuery, hq] using h6)
      · exact .inl hq
  · rw [canonPath_eq_takeWhile]
    exact h7

theorem canonScheme_cases (u : Str) :
    canonScheme u = str "http" ∨ canonScheme u = str "https" := by
  unfold canonScheme
  split
  · exact .inl rfl
  · exact .inr rfl

theorem canonRest_subset (u : Str) : ∀ c ∈ canonRest u, c ∈ u := by
  unfold canonRest
  split
  · exact fun c hc => List.drop_subset _ _ hc
  · exact fun c hc => List.drop_subset _ _ hc

theorem canonNetloc_subset (u : Str) : ∀ c ∈ canonNetloc u, c ∈ u :=
  fun c hc => canonRest_subset u c ((List.takeWhile_prefix _).subset hc)

theorem canonPathQ_subset (u : Str) : ∀ c ∈ canonPathQ u, c ∈ u :=
  fun c hc => canonRest_subset u c ((List.dropWhile_suffix _).subset hc)

theorem canonPath_subset (u : Str) : ∀ c ∈ canonPath u, c ∈ u := by
  rw [canonPath_eq_takeWhile]
  exact fun c hc => canonPathQ_subset u c ((List.takeWhile_prefix _).subset hc)

theorem canonQuery_subset (u : Str) : ∀ c ∈ canonQuery u, c ∈ u := by
  unfold canonQuery
  split
  · next hq =>
    intro c hc
    refine canonPathQ_subset u c ?_
    obtain ⟨-, h2, -⟩ := splitOnce_decomp (canonPathQ u) '?' hq
    rw [h2]
    simp [hc]
  · intro c hc
    cases hc

theorem splitSchemeOf_canonical {u : Str} (hc : canonicalUrl u = true) :
    splitSchemeOf u = some (canonScheme u, '/' :: '/' :: canonRest u) := by
  have hd := canonical_decomp hc
  rcases canonScheme_cases u with hs | hs <;>
    (rw [hs] at hd ⊢; conv_lhs => rw [hd]) <;> rfl

/-- `urlsplit` on a canonical URL, for any default scheme: it recovers the
canonical decomposition and raises nothing. -/
theorem urlsplit_canonical (O : PyOracles) {u : Str} (hc : canonicalUrl u = true)
    (d : Str) :
    urlsplitPy O u d =
      .ok ⟨canonScheme u, canonNetloc u, canonPath u, canonQuery u, []⟩ := by
  obtain ⟨ha, hHash, hLB, hRB, hNet, hQ, hPar⟩ := canonical_facts hc
  have h1 : lstripC0 u = u :=
    dropWhile_eq_self_of _ _ fun c hcm => printable_not_c0 (ha c hcm)
  have h2 : removeUnsafe u = u := removeUnsafe_eq_self u ha
  have hsch := splitSchemeOf_canonical hc
  have hnb1 : ¬('[' ∈ canonNetloc u) := fun hm => hLB (canonNetloc_subset u _ hm)
  have hnb2 : ¬(']' ∈ canonNetloc u) := fun hm => hRB (canonNetloc_subset u _ hm)
  have hnf : ¬('#' ∈ canonPathQ u) := fun hm => hHash (canonPathQ_subset u _ hm)
  have hascii : (canonNetloc u).all isAsciiCh = true := by
    rw [List.all_eq_true]
    exact fun c hcm => printable_ascii (ha c (canonNetloc_subset u c hcm))
  unfold urlsplitPy
  simp only [h1, h2, hsch]
  have hcond : List.take 2 ('/' :: '/' :: canonRest u) = str "//" := rfl
  have hdropc : List.drop 2 ('/' :: '/' :: canonRest u) = canonRest u := rfl
  have hsn : splitnetloc (canonRest u) = (canonNetloc u, canonPathQ u) := rfl
  simp only [hcond, hdropc, hsn, eq_self_iff_true, if_true]
  rw [if_neg (by simp [hnb1, hnb2]), if_neg (by simp [hnb1]),
    if_neg (by simp [hascii]), if_neg hnf]
  by_cases hq : '?' ∈ canonPathQ u
  · rw [if_pos hq]
    have hp : (splitOnce (canonPathQ u) '?').1 = canonPath u := by
      simp [canonPath, hq]
    have hqq : (splitOnce (canonPathQ u) '?').2 = canonQuery u := by
      simp [canonQuery, hq]
    rw [hp, hqq]
  · rw [if_neg hq]
    have hp : canonPathQ u = canonPath u := by simp [canonPath, hq]
    have hqq : canonQuery u = [] := by simp [canonQuery, hq]
    rw [hqq]
    conv_lhs => rw [hp]

theorem findCharIdx_spec (s : Str) (t : Char) (i : ℕ)
    (h : findCharIdx s t = some i) :
    i < s.length ∧ s.take i ++ t :: s.drop (i + 1) = s := by
  induction s generalizing i with
  | nil => cases h
  | cons a rest ih =>
    unfold findCharIdx at h
    by_cases ha : a = t
    · rw [if_pos ha] at h
      cases h
      subst ha
      exact ⟨by simp, rfl⟩
    · rw [if_neg ha] at h
      cases hf : findCharIdx rest t with
      | none => rw [hf] at h; cases h
      | some j =>
        rw [hf] at h
        simp only [Option.map_some', Option.some.injEq] at h
        obtain ⟨hj, heq⟩ := ih j hf
        subst h
        refine ⟨by simpa using Nat.succ_lt_succ hj, ?_⟩
        simp only [List.take_succ_cons, List.drop_succ_cons, List.cons_append]
        exact congrArg (a :: ·) heq

theorem findCharFrom_spec (s : Str) (t : Char) (start i : ℕ)
    (h : findCharFrom s t start = some i) :
    start ≤ i ∧ i < s.length ∧ s.take i ++ t :: s.drop (i + 1) = s := by
  unfold findCharFrom at h
  cases hf : findCharIdx (s.drop start) t with
  | none => rw [hf] at h; cases h
  | some k =>
    rw [hf] at h
    simp only [Option.map_some', Option.some.injEq] at h
    obtain ⟨hk, heq⟩ := findCharIdx_spec _ _ _ hf
    subst h
    have hlen : (s.drop start).length = s.length - start := List.length_drop start s
    have hsl : start ≤ s.length := by
      by_contra hgt
      push_neg at hgt
      have : (s.drop start).length = 0 := by omega
      omega
    refine ⟨Nat.le_add_left _ _, by omega, ?_⟩
    have htk : s.take (k + start) = s.take start ++ (s.drop start).take k := by
      rw [add_comm k start, List.take_add]
    have hdr : s.drop (k + start + 1) = (s.drop start).drop (k + 1) := by
      rw [List.drop_drop]
      congr 1
      omega
    rw [htk, hdr, List.append_assoc, heq, List.take_append_drop]

theorem dropWhile_head_not (P : Char → Bool) (s : Str) :
    s.dropWhile P = [] ∨ P ((s.dropWhile P).headD ' ') = false := by
  induction s with
  | nil => exact .inl rfl
  | cons a t ih =>
    rw [List.dropWhile_cons]
    by_cases hp : P a = true
    · rw [if_pos hp]
      exact ih
    · rw [if_neg hp]
      right
      simpa using Bool.eq_false_iff.mpr hp

theorem take_one_slash {p : Str} (h : p.take 1 = str "/") :
    ∃ t, p = '/' :: t := by
  cases p with
  | nil => cases h
  | cons a t =>
    simp only [List.take_succ_cons, List.take_zero] at h
    cases h
    exact ⟨t, rfl⟩

theorem canonPath_head {u : Str} (hc : canonicalUrl u = true) :
    canonPath u = [] ∨ (canonPath u).take 1 = str "/" := by
  obtain ⟨ha, hHash, -, -, -, -, -⟩ := canonical_facts hc
  have h := dropWhile_head_not
    (fun c => ¬(c = '/' ∨ c = '?' ∨ c = '#')) (canonRest u)
  have hpq : ((canonRest u).dropWhile
      (fun c => ¬(c = '/' ∨ c = '?' ∨ c = '#')) : Str) = canonPathQ u := rfl
  rw [hpq] at h
  rcases h with h | h
  · left
    rw [canonPath_eq_takeWhile, h]
    rfl
  · cases hcase : canonPathQ u with
    | nil =>
      left
      rw [canonPath_eq_takeWhile, hcase]
      rfl
    | cons a t =>
      rw [hcase] at h
      simp only [List.headD_cons] at h
      have himp : ¬a = '/' → ¬a = '?' → a = '#' := by simpa using h
      by_cases h1 : a = '/'
      · subst h1
        right
        rw [canonPath_eq_takeWhile, hcase]
        rfl
      · by_cases h2 : a = '?'
        · subst h2
          left
          rw [canonPath_eq_takeWhile, hcase]
          rfl
        · exfalso
          have ha3 := himp h1 h2
          subst ha3
          exact hHash (canonPathQ_subset u '#' (by rw [hcase]; simp))

theorem splitparams_slash {p : Str} (h : '/' ∈ p) :
    splitparams p =
      match (rfindCharIdx p '/').bind fun j => findCharFrom p ';' j with
      | none => (p, [])
      | some i => (p.take i, p.drop (i + 1)) := by
  unfold splitparams
  rw [if_pos h]
  cases hr : rfindCharIdx p '/' with
  | none => rfl
  | some j => rfl

theorem splitparams_canonical {p : Str} (hok : paramsOkOf p = true)
    (hmem : ';' ∈ p) (hstart : p = [] ∨ p.take 1 = str "/") :
    splitparams p = (p, []) ∨
      ((splitparams p).1 ++ ';' :: (splitparams p).2 = p ∧
        (splitparams p).2 ≠ []) := by
  have hpne : p ≠ [] := fun he => by simp [he] at hmem
  have hsl : '/' ∈ p := by
    obtain ⟨t, ht⟩ := take_one_slash (hstart.resolve_left hpne)
    simp [ht]
  rw [splitparams_slash hsl]
  unfold paramsOkOf at hok
  cases hf : (rfindCharIdx p '/').bind fun j => findCharFrom p ';' j with
  | none => exact .inl rfl
  | some i =>
    rw [hf] at hok
    obtain ⟨j, -, hfj⟩ := Option.bind_eq_some.mp hf
    obtain ⟨-, hlt, heq⟩ := findCharFrom_spec _ _ _ _ hfj
    right
    split at hok
    · rename_i heq2
      cases heq2
    · rename_i i2 hi2
      cases hi2
      simp only [decide_eq_true_eq] at hok
      constructor
      · exact heq
      · intro hnil
        have hge : p.length ≤ i + 1 := List.drop_eq_nil_iff.mp hnil
        omega

/-- `urlparse` on a canonical URL, for any default scheme. -/
theorem urlparse_canonical (O : PyOracles) {u : Str} (hc : canonicalUrl u = true)
    (d : Str) :
    urlparsePy O u d =
      .ok ⟨canonScheme u, canonNetloc u, (canonParams (canonPath u)).1,
        (canonParams (canonPath u)).2, canonQuery u, []⟩ := by
  unfold urlparsePy
  rw [urlsplit_canonical O hc d]
  have hup : canonScheme u ∈ usesParams := by
    rcases canonScheme_cases u with hs | hs <;> rw [hs] <;> decide
  simp only [Except.map]
  by_cases hsc : ';' ∈ canonPath u
  · rw [if_pos ⟨hup, hsc⟩]
    simp [canonParams, hsc]
  · rw [if_neg fun hcon => hsc hcon.2]
    simp [canonParams, hsc]

theorem canonScheme_ne_empty (u : Str) : ¬(canonScheme u).isEmpty = true := by
  rcases canonScheme_cases u with hs | hs <;> simp [hs, str]

theorem canonRest_eq_append (u : Str) :
    canonNetloc u ++ canonPathQ u = canonRest u := by
  unfold canonNetloc canonPathQ splitnetloc
  exact List.takeWhile_append_dropWhile _ _

/-- `urlunsplit` on the canonical components: since the authority is
non-empty and the path is empty or absolute, it simply reassembles the
pieces. -/
theorem urlunsplit_canonical_build (σ n p q : Str) (hσ : ¬σ.isEmpty = true)
    (hn : ¬n.isEmpty = true) (hp : p = [] ∨ p.take 1 = str "/") :
    urlunsplitPy ⟨σ, n, p, q, []⟩ =
      if q.isEmpty then σ ++ ':' :: '/' :: '/' :: (n ++ p)
      else σ ++ ':' :: '/' :: '/' :: (n ++ p) ++ '?' :: q := by
  simp only [urlunsplitPy]
  rw [if_pos (Or.inl hn)]
  have hslash : ¬(¬p.isEmpty = true ∧ ¬p.take 1 = str "/") := by
    rcases hp with h | h
    · exact fun hcon => hcon.1 (by simp [h])
    · exact fun hcon => hcon.2 h
  rw [if_neg hslash, if_pos hσ, if_neg (by simp)]
  by_cases hq : q.isEmpty = true
  · rw [if_neg (by simp [hq]), if_pos hq]
    rfl
  · rw [if_pos (by simp [hq]), if_neg hq]
    rfl

/-- `urlunparse` undoes `urlparse` on a canonical URL. -/
theorem urlunparse_canonical {u : Str} (hc : canonicalUrl u = true) :
    urlunparsePy
      ⟨canonScheme u, canonNetloc u, (canonParams (canonPath u)).1,
        (canonParams (canonPath u)).2, canonQuery u, []⟩ = u := by
  obtain ⟨ha, hHash, hLB, hRB, hNet, hQ, hPar⟩ := canonical_facts hc
  have hjoin :
      (if ¬(canonParams (canonPath u)).2.isEmpty then
        (canonParams (canonPath u)).1 ++ ';' :: (canonParams (canonPath u)).2
       else (canonParams (canonPath u)).1) = canonPath u := by
    by_cases hsc : ';' ∈ canonPath u
    · unfold canonParams
      rw [if_pos hsc]
      rcases splitparams_canonical hPar hsc (canonPath_head hc) with h | ⟨h1, h2⟩
      · rw [h]
        simp
      · rw [if_pos (by simpa [List.isEmpty_iff] using h2)]
        exact h1
    · unfold canonParams
      rw [if_neg hsc]
      simp
  unfold urlunparsePy
  simp only []
  rw [hjoin,
    urlunsplit_canonical_build _ _ _ _ (canonScheme_ne_empty u)
      (by simpa [List.isEmpty_iff] using hNet) (canonPath_head hc)]
  have hd := canonical_decomp hc
  by_cases hq : '?' ∈ canonPathQ u
  · have hqne : canonQuery u ≠ [] := by
      rcases hQ with h | h
      · exact absurd hq h
      · exact h
    rw [if_neg (by simpa [List.isEmpty_iff] using hqne)]
    obtain ⟨-, hp2, -⟩ := splitOnce_decomp (canonPathQ u) '?' hq
    have hpq_eq : canonPathQ u = canonPath u ++ '?' :: canonQuery u := by
      rw [show canonPath u = (splitOnce (canonPathQ u) '?').1 by
          simp [canonPath, hq],
        show canonQuery u = (splitOnce (canonPathQ u) '?').2 by
          simp [canonQuery, hq]]
      exact hp2
    conv_rhs => rw [hd, ← canonRest_eq_append u, hpq_eq]
    simp
  · have hql : canonQuery u = [] := by simp [canonQuery, hq]
    have hpeq : canonPath u = canonPathQ u := by simp [canonPath, hq]
    rw [hql, if_pos (by simp)]
    conv_rhs => rw [hd, ← canonRest_eq_append u]
    rw [hpeq]

theorem canonical_head_h {u : Str} (hc : canonicalUrl u = true) :
    ∃ t, u = 'h' :: t := by
  rcases canonical_prefix hc with h | ⟨-, h⟩ <;>
  · obtain ⟨s, hs⟩ := List.isPrefixOf_iff_prefix.mp h
    exact ⟨_, by rw [← hs]; rfl⟩

theorem canonical_strip {u : Str} (hc : canonicalUrl u = true) :
    pyStrip u = u :=
  pyStrip_eq_self u fun c hcm =>
    printable_not_space ((canonical_facts hc).1 c hcm)

theorem canonical_no_reject {u : Str} (hc : canonicalUrl u = true) :
    ¬((str "mailto:").isPrefixOf u = true ∨
      (str "javascript:").isPrefixOf u = true ∨
      (str "tel:").isPrefixOf u = true ∨ (str "#").isPrefixOf u = true) := by
  obtain ⟨t, rfl⟩ := canonical_head_h hc
  rintro (h | h | h | h) <;> exact Bool.noConfusion h

theorem canonical_mem_relative {u : Str} :
    canonScheme u ∈ usesRelative := by
  rcases canonScheme_cases u with hs | hs <;> rw [hs] <;> decide

theorem canonical_mem_netloc {u : Str} :
    canonScheme u ∈ usesNetloc := by
  rcases canonScheme_cases u with hs | hs <;> rw [hs] <;> decide

theorem urljoin_canonical (O : PyOracles) {b u : Str}
    (hc : canonicalUrl u = true)
    (hb : b = [] ∨ ∃ bp, urlparsePy O b [] = .ok bp) :
    urljoinPy O b u = .ok u := by
  have hune : ¬u.isEmpty = true := by
    obtain ⟨t, rfl⟩ := canonical_head_h hc
    simp
  by_cases hbe : b.isEmpty = true
  · unfold urljoinPy
    rw [if_pos hbe]
  · obtain ⟨bp, hbp⟩ : ∃ bp, urlparsePy O b [] = .ok bp := by
      rcases hb with rfl | hb
      · simp at hbe
      · exact hb
    unfold urljoinPy
    rw [if_neg hbe, if_neg hune, hbp]
    simp only [Except.bind]
    rw [urlparse_canonical O hc bp.scheme]
    simp only [Except.bind]
    by_cases hsc : canonScheme u = bp.scheme
    · have hrel := canonical_mem_relative (u := u)
      rw [hsc] at hrel
      rw [if_neg (by simp [hsc, hrel])]
      have hnE : ¬(canonNetloc u).isEmpty = true := by
        simpa [List.isEmpty_iff] using (canonical_facts hc).2.2.2.2.1
      rw [if_pos ⟨canonical_mem_netloc, hnE⟩]
      rw [urlunparse_canonical hc]
    · rw [if_pos (Or.inl hsc)]

theorem urldefrag_canonical (O : PyOracles) {u : Str}
    (hc : canonicalUrl u = true) : urldefragPy O u = .ok u := by
  unfold urldefragPy
  rw [if_neg (canonical_facts hc).2.1]

theorem canonical_scheme_http {u : Str} :
    canonScheme u = str "http" ∨ canonScheme u = str "https" :=
  canonScheme_cases u

theorem normalize_link_canonical (O : PyOracles) {b u : Str}
    (hc : canonicalUrl u = true)
    (hb : b = [] ∨ ∃ bp, urlparsePy O b [] = .ok bp) :
    normalize_link O b u = .ok (some u) := by
  have hune : ¬u.isEmpty = true := by
    obtain ⟨t, rfl⟩ := canonical_head_h hc
    simp
  unfold normalize_link
  rw [if_neg hune]
  simp only [canonical_strip hc]
  rw [if_neg (canonical_no_reject hc)]
  rw [urljoin_canonical O hc hb]
  simp only [Except.bind]
  rw [urldefrag_canonical O hc]
  simp only [Except.bind]
  rw [urlparse_canonical O hc []]
  simp only [Except.map]
  rw [if_pos canonical_scheme_http]

theorem normalize_link_base_parses (O : PyOracles) {b h u : Str}
    (hr : normalize_link O b h = .ok (some u)) :
    b = [] ∨ ∃ bp, urlparsePy O b [] = .ok bp := by
  by_cases hbe : b = []
  · exact .inl hbe
  right
  unfold normalize_link at hr
  by_cases h0 : h.isEmpty = true
  · rw [if_pos h0] at hr
    simp at hr
  rw [if_neg h0] at hr
  by_cases hrej : (str "mailto:").isPrefixOf (pyStrip h) = true ∨
      (str "javascript:").isPrefixOf (pyStrip h) = true ∨
      (str "tel:").isPrefixOf (pyStrip h) = true ∨
      (str "#").isPrefixOf (pyStrip h) = true
  · rw [if_pos hrej] at hr
    simp at hr
  rw [if_neg hrej] at hr
  unfold urljoinPy at hr
  rw [if_neg (by simpa using hbe)] at hr
  by_cases hse : (pyStrip h).isEmpty = true
  · rw [if_pos hse] at hr
    simp only [Except.bind] at hr
    unfold urldefragPy at hr
    by_cases hhash : '#' ∈ b
    · rw [if_pos hhash] at hr
      cases hp : urlparsePy O b [] with
      | error e =>
        rw [hp] at hr
        simp [Except.map, Except.bind] at hr
      | ok p => exact ⟨p, rfl⟩
    · rw [if_neg hhash] at hr
      simp only [Except.bind] at hr
      cases hp : urlparsePy O b [] with
      | error e =>
        rw [hp] at hr
        simp [Except.map] at hr
      | ok p => exact ⟨p, rfl⟩
  · rw [if_neg hse] at hr
    cases hp : urlparsePy O b [] with
    | error e =>
      rw [hp] at hr
      simp [Except.bind] at hr
    | ok p => exact ⟨p, rfl⟩

/-! ## Helper lemmas: engine visited gate -/

theorem contains_add_self (bf : BloomFilter) (x : Str) :
    (bf.add x).contains x = true := by
  unfold BloomFilter.add BloomFilter.contains
  rw [List.all_eq_true]
  intro p hp
  exact BloomFilter.testPos_foldl_mem _ _ p hp

theorem contains_add_mono (bf : BloomFilter) (x y : Str)
    (h : bf.contains x = true) : (bf.add y).contains x = true := by
  unfold BloomFilter.add BloomFilter.contains at *
  rw [List.all_eq_true] at h ⊢
  intro p hp
  exact BloomFilter.testPos_foldl_mono _ _ _ (h p hp)

theorem should_visit_nostore_dissect (O : PyOracles) (st : CrawlState)
    (u : Str) (r : Bool) (st' : CrawlState) (hs : st.store = none)
    (h : should_visit O st u = .ok (r, st')) :
    st'.store = st.store ∧ st'.cfg = st.cfg ∧
      ((r = false ∧ st'.visited = st.visited) ∨
       (r = true ∧ ¬u ∈ st.visited ∧ st'.visited = st.visited ++ [u])) := by
  unfold should_visit at h
  cases ha : is_allowed_domain O u (configAllowedDomains st.cfg.allowed_domains) with
  | error e =>
    rw [ha] at h
    simp [Except.map] at h
  | ok allowed =>
    rw [ha] at h
    simp only [Except.map] at h
    injection h with h
    rw [hs] at h
    simp only [] at h
    by_cases hal : allowed = false
    · rw [if_pos hal] at h
      injection h with h1 h2
      subst h1
      subst h2
      exact ⟨rfl, rfl, .inl ⟨rfl, rfl⟩⟩
    · rw [if_neg hal] at h
      by_cases hv : u ∈ st.visited
      · rw [if_pos hv] at h
        injection h with h1 h2
        subst h1
        subst h2
        exact ⟨rfl, rfl, .inl ⟨rfl, rfl⟩⟩
      · rw [if_neg hv] at h
        injection h with h1 h2
        subst h1
        subst h2
        exact ⟨by first | rfl | exact hs.symm, rfl, .inr ⟨rfl, hv, rfl⟩⟩

theorem should_visit_store_props (O : PyOracles) (st : CrawlState)
    (u : Str) (r : Bool) (st' : CrawlState) (store : StoreState)
    (hs : st.store = some store)
    (h : should_visit O st u = .ok (r, st')) :
    st'.store = st.store ∧ st'.cfg = st.cfg ∧
      st'.visited = st.visited ∧ st'.frontier = st.frontier ∧
      (r = true → ∃ bfa, st'.bloom = some bfa ∧ bfa.contains u = true) ∧
      (∀ bf, st.bloom = some bf → bf.contains u = true →
        store.has_page u = true → r = false) ∧
      (∀ x bf, st.bloom = some bf → bf.contains x = true →
        ∃ bfa, st'.bloom = some bfa ∧ bfa.contains x = true) := by
  unfold should_visit at h
  cases ha : is_allowed_domain O u (configAllowedDomains st.cfg.allowed_domains) with
  | error e =>
    rw [ha] at h
    simp [Except.map] at h
  | ok allowed =>
    rw [ha] at h
    simp only [Except.map] at h
    injection h with h
    rw [hs] at h
    simp only [] at h
    by_cases hal : allowed = false
    · rw [if_pos hal] at h
      injection h with h1 h2
      subst h1
      subst h2
      refine ⟨rfl, rfl, rfl, rfl, by simp, fun _ _ _ _ => rfl, ?_⟩
      exact fun x bf hb hc => ⟨bf, hb, hc⟩
    · rw [if_neg hal] at h
      cases hb : st.bloom with
      | some bf =>
        have hb1 : st.bloom.isNone = false := by rw [hb]; rfl
        rw [hb1] at h
        simp only [Bool.false_eq_true, if_false] at h
        rw [hb] at h
        simp only [] at h
        split at h
        · rename_i hcu
          injection h with h1 h2
          subst h1
          subst h2
          refine ⟨rfl, rfl, rfl, rfl,
            fun _ => ⟨bf.add u, rfl, contains_add_self bf u⟩, ?_, ?_⟩
          · intro bf2 hb2 hc2 hpg2
            injection hb2 with hb2
            subst hb2
            exact absurd hc2 hcu
          · intro x bf2 hb2 hc2
            injection hb2 with hb2
            subst hb2
            exact ⟨bf.add u, rfl, contains_add_mono bf x u hc2⟩
        · rename_i hcu
          have hcu2 : bf.contains u = true := by
            cases hcb : bf.contains u
            · exact absurd (by simp [hcb]) hcu
            · rfl
          split at h
          · rename_i hpg
            injection h with h1 h2
            subst h1
            subst h2
            refine ⟨rfl, rfl, rfl, rfl, fun hc => Bool.noConfusion hc,
              fun _ _ _ _ => rfl, ?_⟩
            intro x bf2 hb2 hc2
            injection hb2 with hb2
            subst hb2
            exact ⟨bf, hb, hc2⟩
          · rename_i hpg
            injection h with h1 h2
            subst h1
            subst h2
            refine ⟨rfl, rfl, rfl, rfl,
              fun _ => ⟨bf.add u, rfl, contains_add_self bf u⟩, ?_, ?_⟩
            · intro bf2 hb2 hc2 hpg2
              exact absurd hpg2 hpg
            · intro x bf2 hb2 hc2
              injection hb2 with hb2
              subst hb2
              exact ⟨bf.add u, rfl, contains_add_mono bf x u hc2⟩
      | none =>
        have hb1 : st.bloom.isNone = true := by rw [hb]; rfl
        rw [hb1] at h
        rw [if_pos rfl] at h
        simp only [] at h
        split at h
        · rename_i hcu
          injection h with h1 h2
          subst h1
          subst h2
          exact ⟨by first | rfl | exact hs.symm, rfl, rfl, rfl,
            fun _ => ⟨st.freshBloom.add u, rfl,
              contains_add_self st.freshBloom u⟩,
            fun bf2 hb2 => Option.noConfusion hb2, fun x bf2 hb2 => Option.noConfusion hb2⟩
        · rename_i hcu
          split at h
          · rename_i hpg
            injection h with h1 h2
            subst h1
            subst h2
            exact ⟨by first | rfl | exact hs.symm, rfl, rfl, rfl,
              fun hc => Bool.noConfusion hc,
              fun bf2 hb2 => Option.noConfusion hb2, fun x bf2 hb2 => Option.noConfusion hb2⟩
          · rename_i hpg
            injection h with h1 h2
            subst h1
            subst h2
            exact ⟨by first | rfl | exact hs.symm, rfl, rfl, rfl,
              fun _ => ⟨st.freshBloom.add u, rfl,
                contains_add_self st.freshBloom u⟩,
              fun bf2 hb2 => Option.noConfusion hb2, fun x bf2 hb2 => Option.noConfusion hb2⟩

theorem lookup_filter_ne (a : Str) (l : List (Str × ℕ)) :
    List.lookup a (l.filter fun p => ¬p.1 = a) = none := by
  induction l with
  | nil => rfl
  | cons hd tl ih =>
    rcases hd with ⟨k, v⟩
    by_cases h : k = a
    · subst h
      simpa [List.filter_cons] using ih
    · have hk : (a == k) = false := by
        simp [Ne.symm h]
      simp [List.filter_cons, h, List.lookup, hk, ih]
      intro x b _ hne he
      exact hne he.symm

theorem lookup_append_isSome (u : Str) (l t : List (Str × ℕ))
    (h : (List.lookup u l).isSome = true) :
    List.lookup u (l ++ t) = List.lookup u l := by
  induction l with
  | nil => simp [List.lookup] at h
  | cons hd tl ih =>
    rcases hd with ⟨k, v⟩
    by_cases hk : u = k
    · subst hk
      simp [List.lookup]
    · have hb : (u == k) = false := by simp [hk]
      simp only [List.cons_append, List.lookup, hb] at h ⊢
      exact ih h

theorem storeDequeue_store (st : CrawlState) (s : StoreState) (url : Str)
    (hs : st.store = some s) :
    (st.storeDequeue url).store = some (s.dequeue url) := by
  unfold CrawlState.storeDequeue
  rw [hs]

theorem lookup_dequeue_self (s : StoreState) (url : Str) :
    List.lookup url (s.dequeue url).frontier = none := by
  unfold StoreState.dequeue
  exact lookup_filter_ne url s.frontier

theorem finalizeRecord_store (st : CrawlState) (record : PageRecord)
    (depth : ℕ) (s : StoreState) (hs : st.store = some s) :
    (finalizeRecord st record depth).store =
      some ((s.save_page record depth).dequeue record.url) := by
  cases st
  simp only at hs
  subst hs
  rfl

theorem finalizeRecord_store_none (st : CrawlState) (record : PageRecord)
    (depth : ℕ) (hs : st.store = none) :
    (finalizeRecord st record depth).store = none := by
  cases st
  simp only at hs
  subst hs
  rfl

theorem enqueue_step_cases (O : PyOracles) (nd : ℕ) (st st1 : CrawlState)
    (link : Str) (h : enqueue_step O nd st link = .ok st1) :
    st1.cfg = st.cfg ∧
    ((st1.frontier = st.frontier ∧ st1.store = st.store) ∨
     (st1.frontier = st.frontier ++ [(link, nd)] ∧
      ((st.store = none ∧ st1.store = none) ∨
       (∃ s, st.store = some s ∧
         st1.store = some { s with frontier := s.frontier ++ [(link, nd)] })))) := by
  unfold enqueue_step at h
  cases ha : is_allowed_domain O link (configAllowedDomains st.cfg.allowed_domains) with
  | error e =>
    rw [ha] at h
    simp [Except.map] at h
  | ok ok =>
    rw [ha] at h
    simp only [Except.map] at h
    injection h with h
    by_cases hok : ok = true
    · rw [if_pos hok] at h
      cases hs : st.store with
      | none =>
        rw [hs] at h
        simp only [] at h
        subst h
        exact ⟨rfl, .inr ⟨rfl, .inl ⟨rfl, rfl⟩⟩⟩
      | some s =>
        rw [hs] at h
        simp only [] at h
        by_cases hseen : s.seen_url link = false
        · rw [if_pos hseen] at h
          cases hm : s.mark_enqueued link nd with
          | mk flag s2 =>
            rw [hm] at h
            simp only [] at h
            unfold StoreState.mark_enqueued at hm
            by_cases hl : (List.lookup link s.frontier).isSome = true
            · rw [if_pos hl] at hm
              injection hm with hf hs2
              subst hf
              subst hs2
              rw [if_neg (by simp)] at h
              subst h
              exact ⟨rfl, .inl ⟨rfl, rfl⟩⟩
            · rw [if_neg hl] at hm
              injection hm with hf hs2
              subst hf
              subst hs2
              rw [if_pos rfl] at h
              subst h
              exact ⟨rfl, .inr ⟨rfl, .inr ⟨s, rfl, rfl⟩⟩⟩
        · rw [if_neg hseen] at h
          subst h
          exact ⟨rfl, .inl ⟨rfl, hs⟩⟩
    · rw [if_neg hok] at h
      subst h
      exact ⟨rfl, .inl ⟨rfl, rfl⟩⟩

theorem foldlM_enqueue_props (O : PyOracles) (nd : ℕ) :
    ∀ (links : List Str) (st st' : CrawlState),
    List.foldlM (enqueue_step O nd) st links = .ok st' →
    st'.cfg = st.cfg ∧
    (∃ tail, st'.frontier = st.frontier ++ tail ∧ ∀ e ∈ tail, e.2 = nd) ∧
    (st.store = none → st'.store = none) ∧
    (∀ s, st.store = some s → ∃ s2 tail2, st'.store = some s2 ∧
      s2.frontier = s.frontier ++ tail2 ∧ ∀ e ∈ tail2, e.2 = nd) := by
  intro links
  induction links with
  | nil =>
    intro st st' h
    rw [List.foldlM_nil] at h
    injection h with h
    subst h
    exact ⟨rfl, ⟨[], by simp, by simp⟩, fun hn => hn,
      fun s hs => ⟨s, [], hs, by simp, by simp⟩⟩
  | cons link rest ih =>
    intro st st' h
    rw [List.foldlM_cons] at h
    cases hstep : enqueue_step O nd st link with
    | error e =>
      rw [hstep] at h
      exact Except.noConfusion h
    | ok st1 =>
      rw [hstep] at h
      obtain ⟨hcfg, hfr⟩ := enqueue_step_cases O nd st st1 link hstep
      obtain ⟨ihcfg, ⟨tail, htail, htl⟩, ihnone, ihsome⟩ := ih st1 st' h
      refine ⟨ihcfg.trans hcfg, ?_, ?_, ?_⟩
      · rcases hfr with ⟨hf, _⟩ | ⟨hf, _⟩
        · exact ⟨tail, by rw [htail, hf], htl⟩
        · refine ⟨(link, nd) :: tail, ?_, ?_⟩
          · rw [htail, hf, List.append_assoc]
            rfl
          · intro e he
            rcases List.mem_cons.mp he with he | he
            · rw [he]
            · exact htl e he
      · intro hn
        rcases hfr with ⟨_, hstore⟩ | ⟨_, hst2⟩
        · exact ihnone (hstore.trans hn)
        · rcases hst2 with ⟨_, h1n⟩ | ⟨s, hss, _⟩
          · exact ihnone h1n
          · rw [hn] at hss
            exact Option.noConfusion hss
      · intro s hs
        rcases hfr with ⟨_, hstore⟩ | ⟨_, hst2⟩
        · exact ihsome s (hstore.trans hs)
        · rcases hst2 with ⟨hsn, _⟩ | ⟨s0, hss, h1s⟩
          · rw [hs] at hsn
            exact Option.noConfusion hsn
          · rw [hs] at hss
            injection hss with hss
            subst hss
            obtain ⟨s2, tail2, a, b, c⟩ :=
              ihsome { s with frontier := s.frontier ++ [(link, nd)] } h1s
            refine ⟨s2, (link, nd) :: tail2, a, ?_, ?_⟩
            · rw [b]
              simp only [List.append_assoc]
              rfl
            · intro e he
              rcases List.mem_cons.mp he with he | he
              · rw [he]
              · exact c e he

theorem enqueue_links_props (O : PyOracles) (st : CrawlState)
    (links : List Str) (d : ℕ) (st' : CrawlState)
    (h : enqueue_links O st links d = .ok st') :
    st'.cfg = st.cfg ∧
    (∃ tail, st'.frontier = st.frontier ++ tail ∧
      ∀ e ∈ tail, e.2 = d + 1 ∧ d + 1 ≤ st.cfg.max_depth) ∧
    (st.store = none → st'.store = none) ∧
    (∀ s, st.store = some s → ∃ s2 tail2, st'.store = some s2 ∧
      s2.frontier = s.frontier ++ tail2 ∧
      ∀ e ∈ tail2, e.2 = d + 1 ∧ d + 1 ≤ st.cfg.max_depth) := by
  unfold enqueue_links at h
  simp only [] at h
  by_cases hd : d + 1 > st.cfg.max_depth
  · rw [if_pos hd] at h
    injection h with h
    subst h
    exact ⟨rfl, ⟨[], by simp, by simp⟩, fun hn => hn,
      fun s hs => ⟨s, [], hs, by simp, by simp⟩⟩
  · rw [if_neg hd] at h
    have hle : d + 1 ≤ st.cfg.max_depth := Nat.not_lt.mp hd
    obtain ⟨hcfg, ⟨tail, htail, htl⟩, hnone, hsome⟩ :=
      foldlM_enqueue_props O (d + 1) links st st' h
    refine ⟨hcfg, ⟨tail, htail, fun e he => ⟨htl e he, hle⟩⟩, hnone, ?_⟩
    intro s hs
    obtain ⟨s2, tail2, a, b, c⟩ := hsome s hs
    exact ⟨s2, tail2, a, b, fun e he => ⟨c e he, hle⟩⟩

theorem runVisits_nostore_bound (O : PyOracles) :
    ∀ (urls : List Str) (st : CrawlState) (results : List Bool)
      (st' : CrawlState) (u : Str), st.store = none →
      runVisits O st urls = .ok (results, st') →
      countAdmits urls results u + (if u ∈ st.visited then 1 else 0) ≤ 1 := by
  intro urls
  induction urls with
  | nil =>
    intro st results st' u hs h
    unfold runVisits at h
    injection h with h
    injection h with h1 h2
    subst h1
    simp only [countAdmits, List.zip_nil_left, List.countP_nil, Nat.zero_add]
    split
    · exact le_refl 1
    · exact Nat.zero_le 1
  | cons url rest ih =>
    intro st results st' u hs h
    unfold runVisits at h
    cases hsv : should_visit O st url with
    | error e =>
      rw [hsv] at h
      simp [Except.bind] at h
    | ok sv =>
      rw [hsv] at h
      simp only [Except.bind] at h
      cases hrv : runVisits O sv.2 rest with
      | error e =>
        rw [hrv] at h
        simp [Except.map] at h
      | ok rs =>
        rw [hrv] at h
        simp only [Except.map] at h
        injection h with h
        injection h with h1 h2
        subst h1
        obtain ⟨hstore, hcfg, hcases⟩ :=
          should_visit_nostore_dissect O st url sv.1 sv.2 hs hsv
        have ihh := ih sv.2 rs.1 rs.2 u (hstore.trans hs) hrv
        have hsplit : countAdmits (url :: rest) (sv.1 :: rs.1) u =
            countAdmits rest rs.1 u +
              (if url = u ∧ sv.1 = true then 1 else 0) := by
          simp only [countAdmits, List.zip_cons_cons, List.countP_cons,
            decide_eq_true_eq]
        rw [hsplit]
        rcases hcases with ⟨hf, hvis⟩ | ⟨ht, hnot, hvis⟩
        · rw [hvis] at ihh
          have hz : (if url = u ∧ sv.1 = true then 1 else 0) = 0 := by
            rw [hf]
            simp
          rw [hz, Nat.add_zero]
          exact ihh
        · by_cases hu : url = u
          · subst hu
            have hmem : url ∈ sv.2.visited := by
              rw [hvis]
              simp
            rw [if_pos hmem] at ihh
            have hnm : (if url ∈ st.visited then 1 else 0) = 0 := if_neg hnot
            have ho : (if url = url ∧ sv.1 = true then 1 else 0) = 1 := by
              rw [ht]
              simp
            rw [hnm, ho]
            omega
          · have hz : (if url = u ∧ sv.1 = true then 1 else 0) = 0 := by
              simp [hu]
            rw [hz, Nat.add_zero]
            have hiff : u ∈ sv.2.visited ↔ u ∈ st.visited := by
              rw [hvis, List.mem_append]
              constructor
              · rintro (hc | hc)
                · exact hc
                · rw [List.mem_singleton] at hc
                  exact absurd hc.symm hu
              · exact fun hc => Or.inl hc
            by_cases hv2 : u ∈ st.visited
            · rw [if_pos (hiff.mpr hv2)] at ihh
              rw [if_pos hv2]
              omega
            · rw [if_neg (fun hc => hv2 (hiff.mp hc))] at ihh
              rw [if_neg hv2]
              omega

/-! ## Claim theorems: Bloom filter behaviour -/

/-- C3: for every key `x` and every `BloomFilter` state, immediately after
`add(x)` — or after `add_batch` of any list containing `x` — `contains(x)`
returns true: the filter never produces a false negative. -/
theorem bloom_no_false_negative (bf : BloomFilter) (x : Str) (xs : List Str)
    (hx : x ∈ xs) :
    (bf.add x).contains x = true ∧ (bf.add_batch xs).contains x = true := by
  constructor
  · unfold BloomFilter.add BloomFilter.contains
    rw [List.all_eq_true]
    intro p hp
    exact BloomFilter.testPos_foldl_mem _ _ p hp
  · unfold BloomFilter.add_batch BloomFilter.contains
    rw [List.all_eq_true]
    intro p hp
    exact BloomFilter.testPos_batchFold_mem bf.hash_all xs _ x hx p hp

/-- Witness for C3 at a concrete filter state and key list. -/
theorem bloom_no_false_negative_witness :
    str "x" ∈ [str "y", str "x"] ∧
      (bf0.add (str "x")).contains (str "x") = true ∧
      (bf0.add_batch [str "y", str "x"]).contains (str "x") = true :=
  ⟨by decide, bloom_no_false_negative bf0 (str "x") [str "y", str "x"] (by decide)⟩

/-- C10: `add` increments the item counter by exactly 1 and `add_batch(xs)`
increments it by `len(xs)` unconditionally (duplicates counted each time),
and both `len(filter)` and the `items_added` statistic report that
counter. -/
theorem bloom_counts_every_addition (bf : BloomFilter) (x : Str) (xs : List Str) :
    (bf.add x).n_added = bf.n_added + 1 ∧
      (bf.add_batch xs).n_added = bf.n_added + xs.length ∧
      bf.lenOf = bf.n_added ∧
      List.lookup "items_added" bf.get_stats = some (bf.n_added : ℚ) := by
  refine ⟨rfl, rfl, rfl, ?_⟩
  simp [BloomFilter.get_stats, List.lookup]

/-- C9 counterexample: the spec's key set for `get_stats` names
`memory_bytes`, but the dict returned by the code has no such key (it has
`memory_mb` instead), already at the concrete state `bf0`. -/
theorem get_stats_no_memory_bytes_key :
    "memory_bytes" ∈ specStatsKeys ∧
      ¬ "memory_bytes" ∈ (BloomFilter.get_stats bf0).map Prod.fst := by
  constructor
  · decide
  · decide

/-- C9 amended: `get_stats` returns exactly the keys `items_added`,
`size_bits`, `num_hashes`, `memory_mb` (not `memory_bytes`), `fill_ratio`,
`estimated_fpr`, `set_bits`, in that order, with `size_bits = m` and
`num_hashes = k`. -/
theorem get_stats_fields (bf : BloomFilter) :
    (bf.get_stats).map Prod.fst =
      ["items_added", "size_bits", "num_hashes", "memory_mb", "fill_ratio",
       "estimated_fpr", "set_bits"] ∧
      List.lookup "size_bits" bf.get_stats = some (bf.m : ℚ) ∧
      List.lookup "num_hashes" bf.get_stats = some (bf.k : ℚ) := by
  refine ⟨rfl, ?_, ?_⟩ <;> simp [BloomFilter.get_stats, List.lookup]

/-! ## Claim theorems: Bloom sizing (C5) -/

theorem ediv_add_seven_eq_ceil (m : ℤ) : Int.ediv (m + 7) 8 = ⌈(m : ℚ) / 8⌉ := by
  have h0 : 8 * Int.ediv (m + 7) 8 + Int.emod (m + 7) 8 = m + 7 :=
    Int.ediv_add_emod (m + 7) 8
  have h1 : 0 ≤ Int.emod (m + 7) 8 := Int.emod_nonneg _ (by norm_num)
  have h2 : Int.emod (m + 7) 8 < 8 := Int.emod_lt_of_pos _ (by norm_num)
  have hA : m ≤ 8 * Int.ediv (m + 7) 8 := by omega
  have hB : 8 * Int.ediv (m + 7) 8 ≤ m + 7 := by omega
  have hAq : (m : ℚ) ≤ 8 * ((Int.ediv (m + 7) 8 : ℤ) : ℚ) := by exact_mod_cast hA
  have hBq : 8 * ((Int.ediv (m + 7) 8 : ℤ) : ℚ) ≤ (m : ℚ) + 7 := by
    exact_mod_cast hB
  rw [eq_comm, Int.ceil_eq_iff]
  constructor
  · rw [lt_div_iff₀ (by norm_num : (0 : ℚ) < 8)]
    linarith
  · rw [div_le_iff₀ (by norm_num : (0 : ℚ) < 8)]
    linarith

theorem log_half : Real.log (1 / 2) = -Real.log 2 := by
  rw [one_div, Real.log_inv]

theorem ceil_inv_log_two : ⌈(Real.log 2)⁻¹⌉ = (2 : ℤ) := by
  have l2pos : 0 < Real.log 2 := Real.log_pos one_lt_two
  have lb : (0.6931471803 : ℝ) < Real.log 2 := Real.log_two_gt_d9
  have ub : Real.log 2 < 0.6931471808 := Real.log_two_lt_d9
  rw [Int.ceil_eq_iff]
  constructor
  · push_cast
    have h1 : Real.log 2 < 1 := by linarith
    have := (one_lt_inv_iff₀).mpr ⟨l2pos, h1⟩
    linarith
  · push_cast
    have h2 : (2 : ℝ)⁻¹ ≤ Real.log 2 := by norm_num; linarith
    calc (Real.log 2)⁻¹ ≤ ((2 : ℝ)⁻¹)⁻¹ := inv_anti₀ (by norm_num) h2
      _ = 2 := by norm_num

/-- C5 counterexample: at `n = 1`, `p = 1/2` the code computes `k` from the
*unrounded* bit count and returns `k = 1`, while the claim's formula
`⌈(m/n)·ln 2⌉` with the rounded `m = 2` gives `k = 2`. -/
theorem bloom_sizing_k_formula_mismatch :
    calculate_optimal_params 1 (1 / 2) = some (2, 1) ∧
      specHashCount 1 (1 / 2) = 2 := by
  have l2pos : 0 < Real.log 2 := Real.log_pos one_lt_two
  have lb : (0.6931471803 : ℝ) < Real.log 2 := Real.log_two_gt_d9
  have ub : Real.log 2 < 0.6931471808 := Real.log_two_lt_d9
  have hm : -(((1 : ℤ) : ℝ)) * Real.log (1 / 2) / Real.log 2 ^ 2 =
      (Real.log 2)⁻¹ := by
    rw [log_half, sq]
    field_simp
  have hk : (Real.log 2)⁻¹ / (((1 : ℤ) : ℝ)) * Real.log 2 = 1 := by
    push_cast
    field_simp
  constructor
  · unfold calculate_optimal_params
    rw [if_neg (by norm_num)]
    simp only [hm]
    rw [hk, Int.ceil_one, ceil_inv_log_two]
  · unfold specHashCount
    rw [hm, ceil_inv_log_two]
    rw [Int.ceil_eq_iff]
    constructor
    · push_cast
      linarith
    · push_cast
      linarith

/-- C5 amended: for capacity `n > 0` and rate `0 < p < 1`, construction sets
`m = ⌈-n·ln p / (ln 2)²⌉`, allocates exactly `⌈m/8⌉` bytes, and sets
`k = ⌈(m_raw/n)·ln 2⌉` where `m_raw` is the *unrounded* bit count
`-n·ln p / (ln 2)²` (equivalently `k = ⌈-ln p / ln 2⌉ = ⌈log₂(1/p)⌉`),
not the claim's `⌈(⌈m_raw⌉/n)·ln 2⌉`. -/
theorem bloom_sizing (n : ℤ) (p : ℝ) (hn : 0 < n) (hp0 : 0 < p) (hp1 : p < 1) :
    bloomInitSizing n p =
      some (⌈-(n : ℝ) * Real.log p / Real.log 2 ^ 2⌉,
            ⌈-Real.log p / Real.log 2⌉,
            ⌈((⌈-(n : ℝ) * Real.log p / Real.log 2 ^ 2⌉ : ℤ) : ℚ) / 8⌉) := by
  have l2pos : 0 < Real.log 2 := Real.log_pos one_lt_two
  have hne : ((n : ℝ)) ≠ 0 := Int.cast_ne_zero.mpr (by omega)
  have hk : -(n : ℝ) * Real.log p / Real.log 2 ^ 2 / (n : ℝ) * Real.log 2 =
      -Real.log p / Real.log 2 := by
    rw [sq]
    field_simp
    ring
  unfold bloomInitSizing calculate_optimal_params
  rw [if_neg (by push_neg; exact ⟨by omega, hp0, hp1⟩)]
  simp only [Option.map, hk, ediv_add_seven_eq_ceil]

/-- Witness for C5 amended, at `n = 1`, `p = 1/2`. -/
theorem bloom_sizing_witness :
    (0 : ℤ) < 1 ∧ (0 : ℝ) < 1 / 2 ∧ (1 : ℝ) / 2 < 1 ∧
      bloomInitSizing 1 (1 / 2) =
        some (⌈-((1 : ℤ) : ℝ) * Real.log (1 / 2) / Real.log 2 ^ 2⌉,
              ⌈-Real.log (1 / 2) / Real.log 2⌉,
              ⌈((⌈-((1 : ℤ) : ℝ) * Real.log (1 / 2) / Real.log 2 ^ 2⌉ : ℤ) : ℚ) /
                8⌉) :=
  ⟨by norm_num, by norm_num, by norm_num,
    bloom_sizing 1 (1 / 2) (by norm_num) (by norm_num) (by norm_num)⟩

/-! ## Claim theorems: URL normalisation and domain scoping (C7, C8) -/

/-- C7: `is_allowed_domain(url, allowed)` returns true for every url when
`allowed` is empty (before any parsing); otherwise, whenever it returns
(url parses), it returns true iff the lowercased host of `url` equals some
entry of `allowed` or ends with `"." + entry`; and the engine strips
leading dots from every configured domain before the comparison
(engine.py:33), so no entry of the engine's allowed list starts with a
dot. -/
theorem is_allowed_domain_spec (O : PyOracles) (url : Str)
    (allowed : List Str) :
    (allowed = [] → is_allowed_domain O url allowed = .ok true) ∧
      (∀ b p, is_allowed_domain O url allowed = .ok b → allowed ≠ [] →
        urlparsePy O url [] = .ok p →
        (b = true ↔ ∃ d ∈ allowed, lowerStr p.netloc = d ∨
          ('.' :: d).isSuffixOf (lowerStr p.netloc) = true)) ∧
      (∀ ds d, d ∈ configAllowedDomains ds → d.head? ≠ some '.') := by
  refine ⟨?_, ?_, ?_⟩
  · intro he
    subst he
    rfl
  · intro b p hres hne hp
    unfold is_allowed_domain at hres
    rw [if_neg (by simpa [List.isEmpty_iff] using hne), hp] at hres
    simp only [Except.map] at hres
    injection hres with hres
    subst hres
    simp [List.any_eq_true]
  · intro ds d hd
    unfold configAllowedDomains at hd
    obtain ⟨d0, -, rfl⟩ := List.mem_map.mp hd
    generalize lowerStr d0 = s
    induction s with
    | nil => simp
    | cons a t ih =>
      by_cases ha : a = '.'
      · simpa [List.dropWhile_cons, ha] using ih
      · simp [List.dropWhile_cons, ha]

/-- Witness for C7: the empty-allowed case, the subdomain-suffix case (host
`sub.example.com` against allowed entry `example.com`), and the dot-strip
case (configured `.Example.COM` becomes `example.com`). -/
theorem is_allowed_domain_spec_witness :
    is_allowed_domain oracles0 (str "http://sub.example.com/x") [] =
        .ok true ∧
      (true = true ↔ ∃ d ∈ [str "example.com"],
        lowerStr (str "sub.example.com") = d ∨
          ('.' :: d).isSuffixOf (lowerStr (str "sub.example.com")) = true) ∧
      (str "example.com").head? ≠ some '.' := by
  refine ⟨(is_allowed_domain_spec oracles0 (str "http://sub.example.com/x")
      []).1 rfl, ?_, ?_⟩
  · exact (is_allowed_domain_spec oracles0 (str "http://sub.example.com/x")
      [str "example.com"]).2.1 true
      ⟨str "http", str "sub.example.com", str "/x", [], [], []⟩
      (by decide) (by decide) (by decide)
  · exact (is_allowed_domain_spec oracles0 (str "x") []).2.2
      [str ".Example.COM"] (str "example.com") (by decide)

/-- C8 counterexample: with base `"http:"` and href `" "`, `normalize_link`
returns `u = "http:"`, but applying it to its own output returns
`"http://"` ≠ `u` (CPython 3.11's `urlunsplit` restores the `//` for
netloc-using schemes), so `normalize_link` is not idempotent on its own
output. -/
theorem normalize_link_not_idempotent :
    normalize_link oracles0 (str "http:") (str " ") =
        .ok (some (str "http:")) ∧
      normalize_link oracles0 (str "http:") (str "http:") =
        .ok (some (str "http://")) ∧
      str "http:" ≠ str "http://" :=
  ⟨by decide, by decide, by decide⟩

/-- C8 amended: `normalize_link(base, ·)` is idempotent on every output `u`
in canonical form — printable ASCII, a literal `http://`/`https://` prefix,
non-empty host, no `#`, `[`, `]`, no empty query after a `?`, and no empty
params after a `;` ending the last path segment.  Outputs outside this set
exist (see the counterexample) and are rewritten by a second
application. -/
theorem normalize_link_idempotent_on_canonical (O : PyOracles) (b h u : Str)
    (hr : normalize_link O b h = .ok (some u)) (hc : canonicalUrl u = true) :
    normalize_link O b u = .ok (some u) :=
  normalize_link_canonical O hc (normalize_link_base_parses O hr)

/-- Witness for C8 amended, at base `http://example.com/a/b` and href
`/c`. -/
theorem normalize_link_idempotent_witness :
    normalize_link oracles0 (str "http://example.com/a/b") (str "/c") =
        .ok (some (str "http://example.com/c")) ∧
      canonicalUrl (str "http://example.com/c") = true ∧
      normalize_link oracles0 (str "http://example.com/a/b")
        (str "http://example.com/c") = .ok (some (str "http://example.com/c")) :=
  ⟨by decide, by decide,
    normalize_link_idempotent_on_canonical oracles0
      (str "http://example.com/a/b") (str "/c") (str "http://example.com/c")
      (by decide) (by decide)⟩

/-! ## Claim theorems: rate limiter -/

/-- C6: with configured delay `d > 0`, `wait_turn(host)` reads `now` and the
host's stored `next_allowed` (0 when absent), stores
`max(next_allowed, now) + d` for the host (other hosts and the delay are
untouched), and sleeps `max(0, next_allowed - now)`; with configured delay
0 the call returns immediately and the state is unchanged (the per-host
map is neither read nor written in the source). -/
theorem wait_turn_spec (rl : RateLimiter) (netloc : Str) (now : ℚ) :
    (0 < rl.delay_seconds →
      (rl.wait_turn netloc now).1 =
          max 0 ((rl.host_next_time netloc).getD 0 - now) ∧
        (rl.wait_turn netloc now).2.host_next_time netloc =
          some (max ((rl.host_next_time netloc).getD 0) now + rl.delay_seconds) ∧
        (∀ h, h ≠ netloc →
          (rl.wait_turn netloc now).2.host_next_time h = rl.host_next_time h) ∧
        (rl.wait_turn netloc now).2.delay_seconds = rl.delay_seconds) ∧
      (rl.delay_seconds = 0 → rl.wait_turn netloc now = (0, rl)) := by
  constructor
  · intro hd
    unfold RateLimiter.wait_turn
    rw [if_neg (not_le.mpr hd)]
    refine ⟨?_, by simp, fun h hne => by simp [hne], rfl⟩
    rcases le_or_lt ((rl.host_next_time netloc).getD 0) now with h | h
    · simp [not_lt.mpr h, max_eq_left (sub_nonpos.mpr h)]
    · simp [h, max_eq_right (le_of_lt (sub_pos.mpr h))]
  · intro hd
    unfold RateLimiter.wait_turn
    rw [if_pos (le_of_eq hd)]

/-- Witness for C6: the positive-delay part at `rl1` (stored `next_allowed`
3, now 5, delay 1) and the zero-delay part at `rl0`. -/
theorem wait_turn_spec_witness :
    (0 : ℚ) < rl1.delay_seconds ∧
      (rl1.wait_turn (str "a.com") 5).1 =
        max 0 ((rl1.host_next_time (str "a.com")).getD 0 - 5) ∧
      (rl1.wait_turn (str "a.com") 5).2.host_next_time (str "a.com") =
        some (max ((rl1.host_next_time (str "a.com")).getD 0) 5 +
          rl1.delay_seconds) ∧
      rl0.delay_seconds = 0 ∧ rl0.wait_turn (str "a.com") 5 = (0, rl0) := by
  have h1 := (wait_turn_spec rl1 (str "a.com") 5).1 (by norm_num [rl1])
  have h0 := (wait_turn_spec rl0 (str "a.com") 5).2 (by norm_num [rl0])
  exact ⟨by norm_num [rl1], h1.1, h1.2.1, by norm_num [rl0], h0⟩

/-! ## Claim theorems: engine visited gate, worker and link enqueueing -/

theorem storeFrontierLookup_dequeue (st : CrawlState) (s : StoreState)
    (url : Str) (hs : st.store = some s) :
    storeFrontierLookup (st.storeDequeue url) url = none := by
  unfold storeFrontierLookup
  rw [storeDequeue_store st s url hs]
  exact lookup_dequeue_self s url

theorem storeFrontierLookup_finalize (st : CrawlState) (record : PageRecord)
    (depth : ℕ) (s : StoreState) (hs : st.store = some s) :
    storeFrontierLookup (finalizeRecord st record depth) record.url = none := by
  unfold storeFrontierLookup
  rw [finalizeRecord_store st record depth s hs]
  exact lookup_dequeue_self _ record.url

theorem enqueue_links_singleton (O : PyOracles) (st : CrawlState) (l : Str)
    (d : ℕ) (st' : CrawlState) (allowed : Bool)
    (ha : is_allowed_domain O l (configAllowedDomains st.cfg.allowed_domains) =
      .ok allowed)
    (h : enqueue_links O st [l] d = .ok st') :
    (st.store = none →
      st'.frontier = (if d + 1 ≤ st.cfg.max_depth ∧ allowed = true
        then st.frontier ++ [(l, d + 1)] else st.frontier) ∧
      st'.store = none) ∧
    (∀ s, st.store = some s →
      (st'.frontier = if d + 1 ≤ st.cfg.max_depth ∧ allowed = true ∧
          s.seen_url l = false ∧ (s.mark_enqueued l (d + 1)).1 = true
        then st.frontier ++ [(l, d + 1)] else st.frontier) ∧
      st'.store = some (if d + 1 ≤ st.cfg.max_depth ∧ allowed = true ∧
          s.seen_url l = false ∧ (s.mark_enqueued l (d + 1)).1 = true
        then { s with frontier := s.frontier ++ [(l, d + 1)] } else s)) := by
  unfold enqueue_links at h
  simp only [] at h
  by_cases hd : d + 1 > st.cfg.max_depth
  · rw [if_pos hd] at h
    injection h with h
    subst h
    constructor
    · intro hs
      rw [if_neg (fun hc => absurd hc.1 (Nat.not_le.mpr hd))]
      exact ⟨rfl, hs⟩
    · intro s hs
      rw [if_neg (fun hc => absurd hc.1 (Nat.not_le.mpr hd)),
        if_neg (fun hc => absurd hc.1 (Nat.not_le.mpr hd))]
      exact ⟨rfl, hs⟩
  · rw [if_neg hd] at h
    have hle : d + 1 ≤ st.cfg.max_depth := Nat.not_lt.mp hd
    simp only [List.foldlM_cons, List.foldlM_nil] at h
    cases hstep : enqueue_step O (d + 1) st l with
    | error e =>
      rw [hstep] at h
      exact Except.noConfusion h
    | ok st1 =>
      rw [hstep] at h
      have h1 : st1 = st' := by injection h
      subst h1
      unfold enqueue_step at hstep
      rw [ha] at hstep
      simp only [Except.map] at hstep
      injection hstep with hstep
      by_cases hal : allowed = true
      · rw [if_pos hal] at hstep
        constructor
        · intro hs
          rw [hs] at hstep
          simp only [] at hstep
          subst hstep
          rw [if_pos ⟨hle, hal⟩]
          exact ⟨rfl, rfl⟩
        · intro s hs
          rw [hs] at hstep
          simp only [] at hstep
          by_cases hseen : s.seen_url l = false
          · rw [if_pos hseen] at hstep
            unfold StoreState.mark_enqueued at hstep
            by_cases hl : (List.lookup l s.frontier).isSome = true
            · rw [if_pos hl] at hstep
              simp only [] at hstep
              subst hstep
              have hcond : ¬(d + 1 ≤ st.cfg.max_depth ∧ allowed = true ∧
                  s.seen_url l = false ∧
                  (s.mark_enqueued l (d + 1)).1 = true) := by
                intro hc
                have hq := hc.2.2.2
                unfold StoreState.mark_enqueued at hq
                rw [if_pos hl] at hq
                exact Bool.noConfusion hq
              rw [if_neg hcond, if_neg hcond]
              exact ⟨rfl, rfl⟩
            · rw [if_neg hl] at hstep
              simp only [] at hstep
              subst hstep
              have hcond : d + 1 ≤ st.cfg.max_depth ∧ allowed = true ∧
                  s.seen_url l = false ∧
                  (s.mark_enqueued l (d + 1)).1 = true := by
                refine ⟨hle, hal, hseen, ?_⟩
                unfold StoreState.mark_enqueued
                rw [if_neg hl]
              rw [if_pos hcond, if_pos hcond]
              exact ⟨rfl, rfl⟩
          · rw [if_neg hseen] at hstep
            subst hstep
            have hcond : ¬(d + 1 ≤ st.cfg.max_depth ∧ allowed = true ∧
                s.seen_url l = false ∧
                (s.mark_enqueued l (d + 1)).1 = true) :=
              fun hc => hseen hc.2.2.1
            rw [if_neg hcond, if_neg hcond]
            exact ⟨rfl, hs⟩
      · rw [if_neg hal] at hstep
        subst hstep
        constructor
        · intro hs
          rw [if_neg (fun hc => hal hc.2)]
          exact ⟨rfl, hs⟩
        · intro s hs
          rw [if_neg (fun hc => hal hc.2.1), if_neg (fun hc => hal hc.2.1)]
          exact ⟨rfl, hs⟩

/-- C1 (amended): with no store configured, every sequence of visited-gate
calls admits each URL at most once.  With a store, an admitting call always
leaves the URL recorded in the Bloom filter, and a call made while the
Bloom filter contains the URL and a page row for it exists is always
rejected; uniqueness of admission before the page row is saved does not
hold (see the counterexample). -/
theorem should_visit_admits_at_most_once :
    (∀ (O : PyOracles) (st : CrawlState) (urls : List Str)
       (results : List Bool) (st' : CrawlState) (u : Str),
       st.store = none → runVisits O st urls = .ok (results, st') →
       countAdmits urls results u ≤ 1) ∧
    (∀ (O : PyOracles) (st : CrawlState) (s : StoreState) (bf : BloomFilter)
       (u : Str) (r : Bool) (st' : CrawlState),
       st.store = some s → st.bloom = some bf → bf.contains u = true →
       s.has_page u = true → should_visit O st u = .ok (r, st') →
       r = false) ∧
    (∀ (O : PyOracles) (st : CrawlState) (s : StoreState)
       (u : Str) (st' : CrawlState),
       st.store = some s → should_visit O st u = .ok (true, st') →
       ∃ bfa, st'.bloom = some bfa ∧ bfa.contains u = true) := by
  refine ⟨?_, ?_, ?_⟩
  · intro O st urls results st' u hs h
    exact le_trans (Nat.le_add_right _ _)
      (runVisits_nostore_bound O urls st results st' u hs h)
  · intro O st s bf u r st' hs hb hc hp h
    exact (should_visit_store_props O st u r st' s hs h).2.2.2.2.2.1 bf hb hc hp
  · intro O st s u st' hs h
    exact (should_visit_store_props O st u true st' s hs h).2.2.2.2.1 rfl

/-- C1 counterexample: with a configured store holding no page rows and an
initialised empty Bloom filter, two consecutive visited-gate calls for the
same in-domain URL — both made before any page record for it exists — both
admit: the first via the Bloom fast path, the second via the `has_page`
fallback, which accepts because the page row has not been saved yet. -/
theorem should_visit_double_admit :
    (runVisits oracles0 cexVisitState
      [str "http://a/", str "http://a/"]).map Prod.fst =
      Except.ok [true, true] := by decide

/-- C2 (amended): with a store configured, the frontier row for a dequeued
URL is deleted on a robots disallow, on a fetch failure, and on a
successful page save; but on a visited-gate rejection the worker leaves the
store untouched, so the frontier row survives (see the counterexample). -/
theorem worker_dequeues_frontier_row :
    (∀ (O : PyOracles) (st : CrawlState) (url : Str) (depth : ℕ)
       (response : Option FetchResultPy) (ti de te : Str) (links : List Str)
       (s : StoreState),
       st.cfg.obey_robots_txt = true → st.store = some s →
       workerStep O st url depth false response ti de te links =
         .ok (st.storeDequeue url) ∧
       storeFrontierLookup (st.storeDequeue url) url = none) ∧
    (∀ (O : PyOracles) (st : CrawlState) (url : Str) (depth : ℕ)
       (ti de te : Str) (links : List Str) (s : StoreState)
       (sv2 : CrawlState),
       st.store = some s → should_visit O st url = .ok (true, sv2) →
       workerStep O st url depth true none ti de te links =
         .ok (sv2.storeDequeue url) ∧
       storeFrontierLookup (sv2.storeDequeue url) url = none) ∧
    (∀ (O : PyOracles) (st : CrawlState) (url : Str) (depth : ℕ)
       (resp : FetchResultPy) (ti de te : Str) (links : List Str)
       (s : StoreState) (sv2 st2 : CrawlState),
       st.store = some s → should_visit O st url = .ok (true, sv2) →
       workerStep O st url depth true (some resp) ti de te links = .ok st2 →
       storeFrontierLookup st2 url = none) ∧
    (∀ (O : PyOracles) (st : CrawlState) (url : Str) (depth : ℕ)
       (response : Option FetchResultPy) (ti de te : Str) (links : List Str)
       (sv2 : CrawlState),
       should_visit O st url = .ok (false, sv2) →
       workerStep O st url depth true response ti de te links = .ok sv2 ∧
       sv2.store = st.store) := by
  refine ⟨?_, ?_, ?_, ?_⟩
  · intro O st url depth response ti de te links s hob hs
    constructor
    · unfold workerStep
      rw [if_pos ⟨hob, fun hc => Bool.noConfusion hc⟩]
    · exact storeFrontierLookup_dequeue st s url hs
  · intro O st url depth ti de te links s sv2 hs hsv
    have hsv2 : sv2.store = some s :=
      ((should_visit_store_props O st url true sv2 s hs hsv).1).trans hs
    constructor
    · unfold workerStep
      rw [if_neg (fun hc => hc.2 rfl), hsv]
      rfl
    · exact storeFrontierLookup_dequeue sv2 s url hsv2
  · intro O st url depth resp ti de te links s sv2 st2 hs hsv h
    have hsv2 : sv2.store = some s :=
      ((should_visit_store_props O st url true sv2 s hs hsv).1).trans hs
    unfold workerStep at h
    rw [if_neg (fun hc => hc.2 rfl), hsv] at h
    simp only [Except.bind] at h
    rw [if_neg (not_not_intro trivial)] at h
    split at h
    · cases he : enqueue_links O sv2 links depth with
      | error e =>
        rw [he] at h
        simp [Except.map] at h
      | ok stE =>
        rw [he] at h
        simp only [Except.map] at h
        injection h with h
        obtain ⟨-, -, -, hsome⟩ := enqueue_links_props O sv2 links depth stE he
        obtain ⟨s2, tail2, hstE, -, -⟩ := hsome s hsv2
        subst h
        rw [hstE]
        exact storeFrontierLookup_finalize _
          ⟨url, resp.status, resp.content_type, ti, de, te, links.length⟩
          depth (s2.add_links url links) rfl
    · injection h with h
      subst h
      exact storeFrontierLookup_finalize sv2
        ⟨url, resp.status, resp.content_type, [], [], [], 0⟩ depth s hsv2
  · intro O st url depth response ti de te links sv2 hsv
    constructor
    · unfold workerStep
      rw [if_neg (fun hc => hc.2 rfl), hsv]
      rfl
    · cases hsc : st.store with
      | none =>
        exact ((should_visit_nostore_dissect O st url false sv2 hsc hsv).1).trans
          hsc
      | some s =>
        exact ((should_visit_store_props O st url false sv2 s hsc hsv).1).trans
          hsc

/-- C2 counterexample: a worker processing a frontier entry whose URL the
visited gate rejects (Bloom filter positive and the page row exists) exits
without calling `dequeue`: the store's frontier row for the URL is still
present afterwards, with its original depth 1. -/
theorem worker_gate_reject_keeps_row :
    (workerStep oracles0 cexWorkerState (str "http://a/") 0 true none
      [] [] [] []).map
      (fun st => storeFrontierLookup st (str "http://a/")) =
      Except.ok (some 1) := by decide

/-- C4: `enqueue_links(links, current_depth)` enqueues a link — appending
`(link, current_depth+1)` to the in-memory frontier and, when a store is
configured, inserting the row into the frontier table — exactly when
`current_depth + 1 ≤ max_depth`, the link passes the domain filter, and,
with a store, `seen_url` is false and `mark_enqueued` reports an insert;
consequently every new frontier entry has depth `current_depth + 1 ≤
max_depth`, and the depth recorded for an already-present URL is never
changed, neither in memory nor in the store. -/
theorem enqueue_links_spec :
    (∀ (O : PyOracles) (st : CrawlState) (l : Str) (d : ℕ)
       (st' : CrawlState) (allowed : Bool),
       st.store = none →
       is_allowed_domain O l (configAllowedDomains st.cfg.allowed_domains) =
         .ok allowed →
       enqueue_links O st [l] d = .ok st' →
       st'.frontier = (if d + 1 ≤ st.cfg.max_depth ∧ allowed = true
         then st.frontier ++ [(l, d + 1)] else st.frontier)) ∧
    (∀ (O : PyOracles) (st : CrawlState) (s : StoreState) (l : Str) (d : ℕ)
       (st' : CrawlState) (allowed : Bool),
       st.store = some s →
       is_allowed_domain O l (configAllowedDomains st.cfg.allowed_domains) =
         .ok allowed →
       enqueue_links O st [l] d = .ok st' →
       (st'.frontier = if d + 1 ≤ st.cfg.max_depth ∧ allowed = true ∧
           s.seen_url l = false ∧ (s.mark_enqueued l (d + 1)).1 = true
         then st.frontier ++ [(l, d + 1)] else st.frontier) ∧
       st'.store = some (if d + 1 ≤ st.cfg.max_depth ∧ allowed = true ∧
           s.seen_url l = false ∧ (s.mark_enqueued l (d + 1)).1 = true
         then { s with frontier := s.frontier ++ [(l, d + 1)] } else s)) ∧
    (∀ (O : PyOracles) (st : CrawlState) (links : List Str) (d : ℕ)
       (st' : CrawlState),
       enqueue_links O st links d = .ok st' →
       ∀ e ∈ st'.frontier, e ∈ st.frontier ∨
         (e.2 = d + 1 ∧ d + 1 ≤ st.cfg.max_depth)) ∧
    (∀ (O : PyOracles) (st : CrawlState) (links : List Str) (d : ℕ)
       (st' : CrawlState) (u : Str),
       enqueue_links O st links d = .ok st' →
       ((List.lookup u st.frontier).isSome = true →
         List.lookup u st'.frontier = List.lookup u st.frontier) ∧
       (∀ s, st.store = some s → (List.lookup u s.frontier).isSome = true →
         ∃ s2, st'.store = some s2 ∧
           List.lookup u s2.frontier = List.lookup u s.frontier)) := by
  refine ⟨?_, ?_, ?_, ?_⟩
  · intro O st l d st' allowed hs ha h
    exact ((enqueue_links_singleton O st l d st' allowed ha h).1 hs).1
  · intro O st s l d st' allowed hs ha h
    exact (enqueue_links_singleton O st l d st' allowed ha h).2 s hs
  · intro O st links d st' h e he
    obtain ⟨-, ⟨tail, htail, htl⟩, -, -⟩ :=
      enqueue_links_props O st links d st' h
    rw [htail] at he
    rcases List.mem_append.mp he with he | he
    · exact Or.inl he
    · exact Or.inr (htl e he)
  · intro O st links d st' u h
    obtain ⟨-, ⟨tail, htail, -⟩, -, hsome⟩ :=
      enqueue_links_props O st links d st' h
    constructor
    · intro hu
      rw [htail]
      exact lookup_append_isSome u st.frontier tail hu
    · intro s hs hu
      obtain ⟨s2, tail2, ha, hb, -⟩ := hsome s hs
      refine ⟨s2, ha, ?_⟩
      rw [hb]
      exact lookup_append_isSome u s.frontier tail2 hu

end Crawler
